import Mathlib

/-!
Shallow embedding of the multi-agent orchestration engine of `src/app.py`
(classes `Agent`, `RouterAgent`, `MultiAgentChain`, the FastAPI handlers
`create_agent`, `update_agent`, `run_chain`, `history`, and the DAG support),
together with proofs about the embedded code.

Python dictionaries are modelled as insertion-ordered association lists
(`aget` / `aset` mirror `d[k]` lookup and `d[k] = v` assignment: an assignment
to an existing key updates the value in place and keeps the key position, an
assignment to a fresh key appends it at the end, exactly like CPython dicts).
Python `int` is `Int`; the `temperature` float is modelled as `Rat` (it is only
ever stored, compared and forwarded, never computed with).  Calls to the
external generation backend (`llm_processor.process_with_llm` / `ollama.chat`)
are modelled by an explicit `Backend` argument returning `Except String String`
(`.error` = the call raised, carrying `str(e)`); JSON parsing of the router
reply is an explicit `parse` argument.  Exceptions that the Python code lets
escape (`ValueError`, `KeyError`, `HTTPException`) become `Except` errors.
-/

/-- A Python `dict` value slot: insertion-ordered association list. -/
abbrev PyDict (α : Type) := List (String × α)

/-- Lookup `d.get(k)` / `k in d`: first (unique) binding of a key. -/
def aget {α : Type} : PyDict α → String → Option α
  | [], _ => none
  | (k', v) :: rest, k => if k' = k then some v else aget rest k

/-- Assignment `d[k] = v`: update in place if the key exists, else append at the end. -/
def aset {α : Type} : PyDict α → String → α → PyDict α
  | [], k, v => [(k, v)]
  | (k', v') :: rest, k, v =>
      if k' = k then (k', v) :: rest else (k', v') :: aset rest k v

/-- Keys of a dict, in insertion order (`list(d.keys())`). -/
def akeys {α : Type} (l : PyDict α) : List String := l.map (·.1)

theorem aget_aset_self {α : Type} (l : PyDict α) (k : String) (v : α) :
    aget (aset l k v) k = some v := by
  induction l with
  | nil => simp [aget, aset]
  | cons p rest ih =>
      by_cases h : p.1 = k
      · simp [aset, h, aget]
      · simp [aset, h, aget, ih]

theorem aget_aset_ne {α : Type} (l : PyDict α) (k k' : String) (v : α) (h : k ≠ k') :
    aget (aset l k v) k' = aget l k' := by
  induction l with
  | nil => simp [aget, aset, h]
  | cons p rest ih =>
      obtain ⟨a, b⟩ := p
      by_cases hp : a = k
      · subst hp; simp [aset, aget, h]
      · by_cases hp' : a = k' <;> simp [aset, hp, aget, hp', h.symm, ih]

theorem akeys_aset_of_isSome {α : Type} (l : PyDict α) (k : String) (v : α)
    (h : (aget l k).isSome) : akeys (aset l k v) = akeys l := by
  induction l with
  | nil => simp [aget] at h
  | cons p rest ih =>
      by_cases hp : p.1 = k
      · simp [aset, hp, akeys]
      · simp [aget, hp] at h
        simp [aset, hp, akeys] at ih ⊢
        exact ih h

theorem akeys_aset_of_none {α : Type} (l : PyDict α) (k : String) (v : α)
    (h : aget l k = none) : akeys (aset l k v) = akeys l ++ [k] := by
  induction l with
  | nil => simp [aset, akeys]
  | cons p rest ih =>
      by_cases hp : p.1 = k
      · simp [aget, hp] at h
      · simp [aget, hp] at h
        simp [aset, hp, akeys] at ih ⊢
        exact ih h

theorem aget_isSome_iff_mem_akeys {α : Type} (l : PyDict α) (k : String) :
    (aget l k).isSome ↔ k ∈ akeys l := by
  induction l with
  | nil => simp [aget, akeys]
  | cons p rest ih =>
      by_cases hp : p.1 = k
      · simp [aget, hp, akeys]
      · simp [aget, hp, akeys, ih]
        intro h; exact absurd h.symm hp

theorem aget_eq_none_iff_not_mem {α : Type} (l : PyDict α) (k : String) :
    aget l k = none ↔ k ∉ akeys l := by
  rw [← aget_isSome_iff_mem_akeys]
  cases aget l k <;> simp

theorem akeys_nodup_aset {α : Type} (l : PyDict α) (k : String) (v : α)
    (h : (akeys l).Nodup) : (akeys (aset l k v)).Nodup := by
  cases hk : aget l k with
  | some w =>
      rw [akeys_aset_of_isSome l k v (by simp [hk])]; exact h
  | none =>
      rw [akeys_aset_of_none l k v hk]
      simp [List.nodup_append, h]
      exact (aget_eq_none_iff_not_mem l k).mp hk

theorem aget_of_mem_nodup {α : Type} (l : PyDict α) (k : String) (v : α)
    (hn : (akeys l).Nodup) (hm : (k, v) ∈ l) : aget l k = some v := by
  induction l with
  | nil => simp at hm
  | cons p rest ih =>
      obtain ⟨a, b⟩ := p
      simp only [akeys, List.map_cons, List.nodup_cons] at hn
      rcases List.mem_cons.mp hm with hm | hm
      · cases hm; simp [aget]
      · have hk : a ≠ k := by
          intro he; subst he
          exact hn.1 (by exact List.mem_map_of_mem _ hm)
        simp [aget, hk]
        exact ih hn.2 hm

theorem mem_of_aget_eq_some {α : Type} (l : PyDict α) (k : String) (v : α)
    (h : aget l k = some v) : (k, v) ∈ l := by
  induction l with
  | nil => simp [aget] at h
  | cons p rest ih =>
      obtain ⟨a, b⟩ := p
      by_cases hp : a = k
      · subst hp; simp [aget] at h; simp [h]
      · simp [aget, hp] at h
        exact List.mem_cons_of_mem _ (ih h)

/-- Deletion `del d[k]`: removes the binding of `k`, keeping the order of the rest. -/
def adel {α : Type} : PyDict α → String → PyDict α
  | [], _ => []
  | (k', v) :: rest, k => if k' = k then rest else (k', v) :: adel rest k

/-- A `context` dictionary (`Dict[str, Any]` in the source; the engine only ever
serialises it, so a flat string dictionary is a faithful model). -/
abbrev Ctx := PyDict String

/-- The external generation backend `llm_processor.process_with_llm(model,
system_prompt, user_prompt, temperature)`: `.ok` is the reply text, `.error e`
models the call raising an exception with `str(e) = e`. -/
abbrev Backend := String → String → String → Rat → Except String String

/-- Models `json.dumps(context, ensure_ascii=False, indent=2)` on a flat string
dictionary.  The engine only prepends this text verbatim; nothing inspects it. -/
def json_dumps (c : Ctx) : String :=
  "\x7b" ++
    String.intercalate "," (c.map (fun p => "\n  \"" ++ p.1 ++ "\": \"" ++ p.2 ++ "\"")) ++
    "\n\x7d"

/-- Python truthiness of an optional `dict` (`if context:`): `None` and `{}` are falsy. -/
def ctx_truthy : Option Ctx → Bool
  | none => false
  | some c => !c.isEmpty

/-- Class `Agent` of `src/app.py` (`id` is the `uuid.uuid4()` drawn at
construction, supplied here as an argument since it is external randomness). -/
structure Agent where
  name : String
  system_prompt : String
  model : String
  temperature : Rat
  id : String
deriving DecidableEq

/-- The context augmentation at the top of `Agent.execute`: a truthy context is
serialised and prepended to the input as a labelled block. -/
def augment_input (input_text : String) (context : Option Ctx) : String :=
  if ctx_truthy context then
    ("\n\n=== 上下文資訊 ===\n" ++ json_dumps (context.getD []) ++ "\n\n") ++ input_text
  else input_text

/-- Method `Agent.execute`: optionally prepend the serialised context, call the
backend, and convert any raised failure into an error-text result. -/
def Agent.execute (backend : Backend) (a : Agent) (input_text : String)
    (context : Option Ctx) : String :=
  match backend a.model a.system_prompt (augment_input input_text context) a.temperature with
  | .ok response => response
  | .error e => "Agent " ++ a.name ++ " 執行錯誤: " ++ e

/-- The decision dictionary produced by `RouterAgent.route` and consumed by
`run_chain` (a Python dict whose relevant keys may be absent). -/
structure RouterDecision where
  strategy : Option String
  agents : Option (List String)
  reasoning : Option String
deriving DecidableEq

/-- Method `RouterAgent.route`: the `ollama.chat` call is the `chat_reply`
argument (`.error e` = the call raised), `json_loads` is the JSON parse of the
reply (`none` = `json.loads` raised). -/
def RouterAgent.route (chat_reply : Except String String)
    (json_loads : String → Option RouterDecision)
    (available_agents : List String) : RouterDecision :=
  match chat_reply with
  | .ok result =>
      match json_loads result with
      | some d => d
      | none =>
          { strategy := some "single"
            agents := some (match available_agents with | [] => [] | a :: _ => [a])
            reasoning := some "自動選擇單一 Agent 處理" }
  | .error e =>
      { strategy := some "single"
        agents := some (match available_agents with | [] => [] | a :: _ => [a])
        reasoning := some ("路由錯誤，使用預設策略: " ++ e) }

/-- One step record of `execute_sequential`. -/
structure Step where
  agent : String
  input : String
  output : String
deriving DecidableEq

/-- The payload dictionary appended to `execution_history`; the constructor
encodes the `"strategy"` key, the fields are the remaining keys. -/
inductive Payload where
  | single (agent : String) (result : String) (context : Option Ctx)
  | parallel (agents : List String) (individual_results : PyDict String) (final_result : String)
  | sequential (agents : List String) (steps : List Step) (final_result : String)
  | branched (topo_order : List String) (edges : List (String × String)) (entry : List String)
      (outputs : PyDict String) (final_result : PyDict String)
deriving DecidableEq

/-- Class `MultiAgentChain`: the registry, the evaluator prompt and the history.
The `router` field only carries external-call configuration and is modelled at
the call sites of `RouterAgent.route`. -/
structure MultiAgentChain where
  agents : PyDict Agent
  evaluator_prompt : String
  execution_history : List Payload
deriving DecidableEq

/-- Method `MultiAgentChain.add_agent`. -/
def add_agent (c : MultiAgentChain) (agent : Agent) : MultiAgentChain :=
  { c with agents := aset c.agents agent.name agent }

/-- Method `MultiAgentChain.remove_agent`. -/
def remove_agent (c : MultiAgentChain) (name : String) : MultiAgentChain :=
  if (aget c.agents name).isSome then { c with agents := adel c.agents name } else c

/-- Method `MultiAgentChain.execute_single`; `.error` is the raised `ValueError`. -/
def execute_single (backend : Backend) (c : MultiAgentChain) (agent_name : String)
    (input_text : String) (context : Option Ctx) :
    Except String (MultiAgentChain × Payload) :=
  match aget c.agents agent_name with
  | none => .error ("Agent " ++ agent_name ++ " 不存在")
  | some a =>
      let result := a.execute backend input_text context
      let payload : Payload := .single agent_name result context
      .ok ({ c with execution_history := c.execution_history ++ [payload] }, payload)

/-- One observable call made during `execute_parallel`: an `Agent.execute`
invocation, or the evaluator merge call (`process_with_llm` on the evaluation
prompt). -/
inductive CallEvent where
  | agentCall (name : String) (input_text : String) (context : Option Ctx)
  | evalCall (user_prompt : String)
deriving DecidableEq

/-- The first loop of `execute_parallel`: run every registered named agent on
the same input, collecting `results` and the trace of agent calls. -/
def parallel_results (backend : Backend) (agents : PyDict Agent)
    (agent_names : List String) (input_text : String) (context : Option Ctx) :
    PyDict String × List CallEvent :=
  agent_names.foldl
    (fun acc name =>
      match aget agents name with
      | some a => (aset acc.1 name (a.execute backend input_text context),
                   acc.2 ++ [.agentCall name input_text context])
      | none => acc)
    ([], [])

/-- The evaluation prompt of `execute_parallel`, built from the original input
and every individual result in insertion order. -/
def evaluation_input (input_text : String) (results : PyDict String) : String :=
  ("原始輸入：\n" ++ input_text ++ "\n\n各 Agent 結果：\n") ++
    String.join (results.map (fun p => "\n=== " ++ p.1 ++ " ===\n" ++ p.2 ++ "\n"))

/-- Method `MultiAgentChain.execute_parallel`, instrumented with the trace of
backend-visible calls; the evaluator call is not wrapped in `try` in the
source, so its failure propagates (`.error`). -/
def execute_parallel (backend : Backend) (c : MultiAgentChain) (agent_names : List String)
    (input_text : String) (context : Option Ctx) :
    Except String (MultiAgentChain × Payload) × List CallEvent :=
  let st := parallel_results backend c.agents agent_names input_text context
  let eval_input := evaluation_input input_text st.1
  let events := st.2 ++ [.evalCall eval_input]
  match backend "llama3.2:3b" c.evaluator_prompt eval_input 0.1 with
  | .error e => (.error e, events)
  | .ok final_result =>
      let payload : Payload := .parallel agent_names st.1 final_result
      (.ok ({ c with execution_history := c.execution_history ++ [payload] }, payload), events)

/-- The loop of `execute_sequential`: thread `current_input` through the
registered agents, skipping unknown names, recording the steps. -/
def sequential_steps (backend : Backend) (agents : PyDict Agent) :
    List String → String → Option Ctx → List Step × String
  | [], current_input, _ => ([], current_input)
  | name :: rest, current_input, context =>
      match aget agents name with
      | none => sequential_steps backend agents rest current_input context
      | some a =>
          let result := a.execute backend current_input context
          let next := sequential_steps backend agents rest result context
          (⟨name, current_input, result⟩ :: next.1, next.2)

/-- Method `MultiAgentChain.execute_sequential` (it cannot raise). -/
def execute_sequential (backend : Backend) (c : MultiAgentChain) (agent_names : List String)
    (input_text : String) (context : Option Ctx) : MultiAgentChain × Payload :=
  let st := sequential_steps backend c.agents agent_names input_text context
  let payload : Payload := .sequential agent_names st.1 st.2
  ({ c with execution_history := c.execution_history ++ [payload] }, payload)

/-- The DAG descriptor `DAGConfig` (pydantic model). -/
structure DAGConfig where
  edges : List (List String)
  entry : List String
  outputs : List String
deriving DecidableEq

/-- List comprehension `[(e[0], e[1]) for e in dag.edges if len(e) == 2]`. -/
def edge_pairs (dag_edges : List (List String)) : List (String × String) :=
  dag_edges.filterMap (fun e => match e with | [s, t] => some (s, t) | _ => none)

/-- The graph-building loop of `execute_branched`: for each edge `(s, t)`,
`adj.setdefault(s, []).append(t)`, then `indeg[t] = indeg.get(t, 0) + 1`,
then `indeg.setdefault(s, 0)` (this fixes the key insertion order). -/
def build_graph : List (String × String) → PyDict Int × PyDict (List String) →
    PyDict Int × PyDict (List String)
  | [], st => st
  | (s, t) :: rest, (indeg, adj) =>
      let adj := aset adj s ((aget adj s).getD [] ++ [t])
      let indeg := aset indeg t ((aget indeg t).getD 0 + 1)
      let indeg := if (aget indeg s).isSome then indeg else aset indeg s 0
      build_graph rest (indeg, adj)

/-- The inner loop over the successors of a dequeued node: `indeg[nxt] -= 1`;
if the result is `<= 0`, `q.append(nxt)`.  Every successor is a key of `indeg`
by construction of `build_graph`, so the `getD 0` fallback is never taken on
states reachable from `execute_branched`. -/
def process_succs : PyDict Int → List String → List String → PyDict Int × List String
  | indeg, q, [] => (indeg, q)
  | indeg, q, nxt :: rest =>
      let d := (aget indeg nxt).getD 0 - 1
      process_succs (aset indeg nxt d) (if d ≤ 0 then q ++ [nxt] else q) rest

/-- The Kahn `while q:` loop of `execute_branched`.  The Python loop runs until
the deque is empty; here a fuel argument makes the recursion structural, and
`kahn_fuel_sufficient` below proves that the fuel `execute_branched` passes
(`entry.length + edges.length`) always drains the queue, so the third returned
component (the leftover queue) is `[]` on every real call. -/
def kahn_loop (adj : PyDict (List String)) :
    Nat → List String → PyDict Int → List String → List String →
    List String × List String × List String
  | 0, q, _, seen, order => (order, seen, q)
  | _ + 1, [], _, seen, order => (order, seen, [])
  | fuel + 1, n :: q, indeg, seen, order =>
      if n ∈ seen then kahn_loop adj fuel q indeg seen order
      else
        let st := process_succs indeg q ((aget adj n).getD [])
        kahn_loop adj fuel st.2 st.1 (seen ++ [n]) (order ++ [n])

/-- The order-computing part of `execute_branched` (it depends only on the
descriptor): returns `(entry, order, seen)` — the used entry list, the final
`order` (main Kahn pass plus the unvisited-`adj`-keys pass), and the visited
set `seen` of the main pass (as the list of visited nodes in visit order). -/
def branched_order (dag : DAGConfig) : List String × List String × List String :=
  let epairs := edge_pairs dag.edges
  let st := build_graph epairs ([], [])
  let entry := if dag.entry.isEmpty then (st.1.filter (fun p => p.2 = 0)).map (·.1)
               else dag.entry
  let k := kahn_loop st.2 (entry.length + epairs.length) entry st.1 [] []
  (entry, k.1 ++ (akeys st.2).filter (fun n => decide (n ∉ k.2.1)), k.2.1)

/-- The execution loop of `execute_branched` for one node of `order`: a
registered agent runs on the shared original input, an unknown name yields the
skipped marker. -/
def node_output (backend : Backend) (agents : PyDict Agent) (input_text : String)
    (context : Option Ctx) (name : String) : String :=
  match aget agents name with
  | none => "(skipped, agent not found: " ++ name ++ ")"
  | some a => a.execute backend input_text context

/-- The `outputs` dictionary of `execute_branched`, built over `order`. -/
def run_outputs (backend : Backend) (agents : PyDict Agent) (input_text : String)
    (context : Option Ctx) (order : List String) : PyDict String :=
  order.foldl (fun acc name => aset acc name (node_output backend agents input_text context name)) []

/-- Dict comprehension `{k: outputs[k] for k in dag.outputs}`; a key absent
from `outputs` raises `KeyError` (modelled as `.error`). -/
def dict_pick (outputs : PyDict String) : List String → PyDict String →
    Except String (PyDict String)
  | [], acc => .ok acc
  | k :: rest, acc =>
      match aget outputs k with
      | none => .error ("KeyError: " ++ k)
      | some v => dict_pick outputs rest (aset acc k v)

/-- Method `MultiAgentChain.execute_branched`: Kahn topological pass, the
unvisited-source pass, execution of every ordered node on the shared input,
and the final filtering by `dag.outputs` (whose `KeyError` propagates). -/
def execute_branched (backend : Backend) (c : MultiAgentChain) (dag : DAGConfig)
    (input_text : String) (context : Option Ctx) :
    Except String (MultiAgentChain × Payload) :=
  let epairs := edge_pairs dag.edges
  let eos := branched_order dag
  let outputs := run_outputs backend c.agents input_text context eos.2.1
  match (if dag.outputs.isEmpty then .ok outputs else dict_pick outputs dag.outputs []) with
  | .error e => .error e
  | .ok final_out =>
      let payload : Payload := .branched eos.2.1 epairs eos.1 outputs final_out
      .ok ({ c with execution_history := c.execution_history ++ [payload] }, payload)

/-- Pydantic request body `AgentCreate`. -/
structure AgentCreate where
  name : String
  system_prompt : String
  model : String
  temperature : Rat
deriving DecidableEq

/-- Pydantic request body `AgentUpdate` (all fields optional). -/
structure AgentUpdate where
  system_prompt : Option String
  model : Option String
  temperature : Option Rat
deriving DecidableEq

/-- Handler `POST /api/agents` (`create_agent`); `.error` is the raised
`HTTPException(400)`, `fresh_id` is the `uuid.uuid4()` of the new `Agent`. -/
def create_agent (c : MultiAgentChain) (agent : AgentCreate) (fresh_id : String) :
    Except String MultiAgentChain :=
  if (aget c.agents agent.name).isSome then .error "Agent 已存在"
  else .ok (add_agent c ⟨agent.name, agent.system_prompt, agent.model, agent.temperature, fresh_id⟩)

/-- Handler `PUT /api/agents/:name` (`update_agent`); `.error` is the raised
`HTTPException(404)`.  Only the fields supplied non-`None` are assigned. -/
def update_agent (c : MultiAgentChain) (name : String) (data : AgentUpdate) :
    Except String MultiAgentChain :=
  match aget c.agents name with
  | none => .error "Agent 不存在"
  | some ag =>
      let ag := match data.system_prompt with
                | some sp => { ag with system_prompt := sp }
                | none => ag
      let ag := match data.model with
                | some m => { ag with model := m }
                | none => ag
      let ag := match data.temperature with
                | some t => { ag with temperature := t }
                | none => ag
      .ok { c with agents := aset c.agents name ag }

/-- The module-level `chain` after a handler call: a raised `HTTPException`
leaves the global chain untouched. -/
def chain_after (c : MultiAgentChain) (r : Except String MultiAgentChain) : MultiAgentChain :=
  match r with
  | .ok c' => c'
  | .error _ => c

/-- Pydantic request body `RunRequest` (`batchId` only drives an external
MongoDB side write and is not part of the engine state). -/
structure RunRequest where
  input_text : String
  strategy : Option String
  agents : Option (List String)
  context : Option Ctx
  batchId : Option String
deriving DecidableEq

/-- Truthiness filter of an optional string (`None` and `""` are falsy). -/
def truthy_str : Option String → Option String
  | some s => if s.isEmpty then none else some s
  | none => none

/-- Truthiness filter of an optional list (`None` and `[]` are falsy). -/
def truthy_list {α : Type} : Option (List α) → Option (List α)
  | some l => if l.isEmpty then none else some l
  | none => none

/-- Python `a or b` on an optional string. -/
def py_or_str (a : Option String) (b : String) : String :=
  (truthy_str a).getD b

/-- How `run_chain` can fail: `.http status detail` is a raised (and handled)
`HTTPException`; `.unhandled msg` is any other exception escaping the handler
(FastAPI turns it into a 500 response). -/
inductive RunErr where
  | http (status : Nat) (detail : String)
  | unhandled (msg : String)
deriving DecidableEq

/-- Response model `RunResponse`. -/
structure RunResponse where
  strategy_used : String
  decision : RouterDecision
  payload : Payload
deriving DecidableEq

/-- Python `str.lower()`, mapped over the characters (ASCII case folding, which
is all `.lower()` does on the strategy tokens this engine compares against). -/
def py_lower (s : String) : String :=
  ⟨s.data.map Char.toLower⟩

/-- The strategy resolved by `run_chain`:
`(decision.get("strategy") or req.strategy or "single").lower()`. -/
def resolved_strategy (decision : RouterDecision) (req : RunRequest) : String :=
  py_lower ((truthy_str decision.strategy).getD (py_or_str req.strategy "single"))

/-- The agent-name list resolved by `run_chain`:
`req.agents or decision.get("agents") or available_agents`. -/
def resolved_agent_names (decision : RouterDecision) (req : RunRequest)
    (available_agents : List String) : List String :=
  (truthy_list req.agents).getD ((truthy_list decision.agents).getD available_agents)

/-- The tail of `run_chain` after the decision is resolved: the empty-name
check and the dispatch on the strategy token. -/
def dispatch (backend : Backend) (current_dag : DAGConfig) (c : MultiAgentChain)
    (strategy : String) (agent_names : List String) (decision : RouterDecision)
    (req : RunRequest) : Except RunErr (MultiAgentChain × RunResponse) :=
  match agent_names with
  | [] => .error (.http 400 "沒有可用的 Agent")
  | target :: _ =>
      if strategy = "single" then
        match execute_single backend c target req.input_text req.context with
        | .error e => .error (.unhandled e)
        | .ok st => .ok (st.1, ⟨strategy, decision, st.2⟩)
      else if strategy = "parallel" then
        match (execute_parallel backend c agent_names req.input_text req.context).1 with
        | .error e => .error (.unhandled e)
        | .ok st => .ok (st.1, ⟨strategy, decision, st.2⟩)
      else if strategy = "sequential" then
        let st := execute_sequential backend c agent_names req.input_text req.context
        .ok (st.1, ⟨strategy, decision, st.2⟩)
      else if strategy = "branched" then
        match execute_branched backend c current_dag req.input_text req.context with
        | .error e => .error (.unhandled e)
        | .ok st => .ok (st.1, ⟨strategy, decision, st.2⟩)
      else .error (.http 400 "策略必須為 single/parallel/sequential/branched/auto")

/-- Handler `POST /api/run` (`run_chain`).  `route_decision` stands for the
value `chain.router.route(...)` would return (the router never raises, see
`RouterAgent.route`); it is consumed only when the strategy hint resolves to
`"auto"`.  The `batchId` MongoDB push is an external side write after the
payload is computed and is not modelled. -/
def run_chain (backend : Backend) (route_decision : RouterDecision) (current_dag : DAGConfig)
    (c : MultiAgentChain) (req : RunRequest) :
    Except RunErr (MultiAgentChain × RunResponse) :=
  let available_agents := akeys c.agents
  let decision : RouterDecision :=
    if py_or_str req.strategy "auto" = "auto" then route_decision
    else { strategy := some (py_or_str req.strategy "auto")
           agents := some (req.agents.getD [])
           reasoning := none }
  dispatch backend current_dag c (resolved_strategy decision req)
    (resolved_agent_names decision req available_agents) decision req

/-- Handler `GET /api/history` (`history`). -/
def history (c : MultiAgentChain) : List Payload :=
  c.execution_history

/-- A sequence of top-level `POST /api/run` calls, each with the router
decision in effect for it; stops at the first failing call. -/
def run_many (backend : Backend) (current_dag : DAGConfig) :
    MultiAgentChain → List (RouterDecision × RunRequest) → Except RunErr MultiAgentChain
  | c, [] => .ok c
  | c, (d, req) :: rest =>
      match run_chain backend d current_dag c req with
      | .error e => .error e
      | .ok st => run_many backend current_dag st.1 rest

/-- String-shape helper: a string with a non-empty left part is non-empty. -/
theorem append_ne_empty_left (s t : String) (h : s.data ≠ []) : s ++ t ≠ "" := by
  intro he
  have h2 := congrArg String.data he
  rw [String.data_append] at h2
  simp at h2
  exact h h2.1

/-- The threading discipline the sequential strategy is specified to obey, as a
predicate on a recorded step list: starting from `cur`, each step consumed the
current text as its input, produced its output by running the registered agent
it names on that input with the shared `context`, and the final result is the
last output (or `cur` when no step ran). -/
def ChainedFrom (backend : Backend) (agents : PyDict Agent) (context : Option Ctx) :
    String → List Step → String → Prop
  | cur, [], final => final = cur
  | cur, s :: rest, final =>
      s.input = cur ∧
      (∃ a, aget agents s.agent = some a ∧ s.output = a.execute backend s.input context) ∧
      ChainedFrom backend agents context s.output rest final

/-- The loop of `execute_sequential` records exactly the registered names, in
order, and obeys the threading discipline. -/
theorem sequential_steps_spec (backend : Backend) (agents : PyDict Agent) (context : Option Ctx) :
    ∀ (names : List String) (input : String),
      ((sequential_steps backend agents names input context).1.map (·.agent) =
        names.filter (fun n => (aget agents n).isSome)) ∧
      ChainedFrom backend agents context input
        (sequential_steps backend agents names input context).1
        (sequential_steps backend agents names input context).2 := by
  intro names
  induction names with
  | nil => intro input; constructor <;> simp [sequential_steps, ChainedFrom]
  | cons name rest ih =>
      intro input
      cases h : aget agents name with
      | none =>
          refine ⟨?_, ?_⟩
          · simpa [sequential_steps, h] using (ih input).1
          · simpa [sequential_steps, h] using (ih input).2
      | some a =>
          refine ⟨?_, ?_⟩
          · simpa [sequential_steps, h] using (ih (a.execute backend input context)).1
          · simp only [sequential_steps, h]
            exact ⟨rfl, ⟨a, h, rfl⟩, (ih (a.execute backend input context)).2⟩

/-- C2: for every list of agent names, input text and context,
`execute_sequential` gives the original input to the first registered agent and
each subsequent registered agent the output of the previous registered agent,
with the same shared context at every step; names not in the registry are
skipped with the current input passing through; and `final_result` is the last
produced output, or the original input if no named agent exists in the
registry (all of which is the `ChainedFrom` discipline, plus the step list
naming exactly the registered names in order). -/
theorem C2_sequential_chain (backend : Backend) (c : MultiAgentChain)
    (agent_names : List String) (input_text : String) (context : Option Ctx) :
    ∃ steps final_result,
      (execute_sequential backend c agent_names input_text context).2 =
        Payload.sequential agent_names steps final_result ∧
      steps.map (·.agent) = agent_names.filter (fun n => (aget c.agents n).isSome) ∧
      ChainedFrom backend c.agents context input_text steps final_result :=
  ⟨_, _, rfl,
    (sequential_steps_spec backend c.agents context agent_names input_text).1,
    (sequential_steps_spec backend c.agents context agent_names input_text).2⟩

/-- C7: a backend failure is recovered inside `Agent.execute` as an error text
carrying the agent's own name and the error indicator `執行錯誤`, and
`RouterAgent.route` recovers both an unparsable reply and a raised backend
call into the single-agent fallback decision, whose `reasoning` is non-empty;
neither method ever raises (both are total functions into plain data). -/
theorem C7_backend_failure_recovered (backend : Backend) (a : Agent) (input_text : String)
    (context : Option Ctx) (chat_reply : Except String String)
    (json_loads : String → Option RouterDecision) (available_agents : List String) :
    (∀ e, backend a.model a.system_prompt (augment_input input_text context) a.temperature =
        .error e →
      Agent.execute backend a input_text context =
        "Agent " ++ a.name ++ " 執行錯誤: " ++ e) ∧
    (∀ e, chat_reply = .error e →
      RouterAgent.route chat_reply json_loads available_agents =
        { strategy := some "single"
          agents := some (match available_agents with | [] => [] | x :: _ => [x])
          reasoning := some ("路由錯誤，使用預設策略: " ++ e) } ∧
      ("路由錯誤，使用預設策略: " ++ e) ≠ "") ∧
    (∀ r, chat_reply = .ok r → json_loads r = none →
      RouterAgent.route chat_reply json_loads available_agents =
        { strategy := some "single"
          agents := some (match available_agents with | [] => [] | x :: _ => [x])
          reasoning := some "自動選擇單一 Agent 處理" } ∧
      ("自動選擇單一 Agent 處理" : String) ≠ "") := by
  refine ⟨?_, ?_, ?_⟩
  · intro e he
    simp [Agent.execute, he]
  · intro e he
    subst he
    refine ⟨by simp [RouterAgent.route], ?_⟩
    exact append_ne_empty_left _ _ (by decide)
  · intro r hr hj
    subst hr
    exact ⟨by simp [RouterAgent.route, hj], by decide⟩

/-- C8: registering a name that already exists is rejected (HTTP 400) leaving
the existing entry unmodified, updating a missing name is rejected (HTTP 404)
without creating an entry, and both handlers preserve the at-most-one-agent-
per-name invariant of the registry. -/
theorem C8_registry_uniqueness (c : MultiAgentChain) (ac : AgentCreate)
    (fresh_id name : String) (data : AgentUpdate) :
    (∀ a, aget c.agents ac.name = some a →
       create_agent c ac fresh_id = .error "Agent 已存在" ∧
       aget (chain_after c (create_agent c ac fresh_id)).agents ac.name = some a) ∧
    (aget c.agents name = none →
       update_agent c name data = .error "Agent 不存在" ∧
       aget (chain_after c (update_agent c name data)).agents name = none) ∧
    ((akeys c.agents).Nodup →
       (akeys (chain_after c (create_agent c ac fresh_id)).agents).Nodup ∧
       (akeys (chain_after c (update_agent c name data)).agents).Nodup) := by
  refine ⟨?_, ?_, ?_⟩
  · intro a ha
    constructor
    · simp [create_agent, ha]
    · simp [chain_after, create_agent, ha]
  · intro h
    constructor
    · simp [update_agent, h]
    · simp [chain_after, update_agent, h]
  · intro hn
    constructor
    · cases hc : aget c.agents ac.name with
      | some a => simp [chain_after, create_agent, hc]; exact hn
      | none =>
          simp [chain_after, create_agent, hc, add_agent]
          exact akeys_nodup_aset _ _ _ hn
    · cases hu : aget c.agents name with
      | none => simp [chain_after, update_agent, hu]; exact hn
      | some ag =>
          simp [chain_after, update_agent, hu]
          exact akeys_nodup_aset _ _ _ hn

/-- C10: updating an existing agent assigns exactly the non-`None` fields of
the request, keeps the agent's `name` and `id`, and leaves every other
registry entry, the evaluator prompt and the history unchanged. -/
theorem C10_update_frame (c : MultiAgentChain) (name : String) (data : AgentUpdate)
    (ag : Agent) (h : aget c.agents name = some ag) :
    ∃ c', update_agent c name data = .ok c' ∧
      aget c'.agents name = some
        { name := ag.name
          system_prompt := data.system_prompt.getD ag.system_prompt
          model := data.model.getD ag.model
          temperature := data.temperature.getD ag.temperature
          id := ag.id } ∧
      (∀ k, k ≠ name → aget c'.agents k = aget c.agents k) ∧
      c'.evaluator_prompt = c.evaluator_prompt ∧
      c'.execution_history = c.execution_history := by
  refine ⟨{ c with
              agents := aset c.agents name
                ⟨ag.name, data.system_prompt.getD ag.system_prompt, data.model.getD ag.model,
                  data.temperature.getD ag.temperature, ag.id⟩ }, ?_, ?_, ?_, rfl, rfl⟩
  · cases hs : data.system_prompt <;> cases hm : data.model <;>
      cases ht : data.temperature <;>
      simp [update_agent, h, hs, hm, ht]
  · exact aget_aset_self _ _ _
  · intro k hk
    exact aget_aset_ne _ _ _ _ (Ne.symm hk)

/-- Concrete fixtures for witnesses: a deterministic backend whose reply
records the system and user prompts, and a three-agent registry. -/
def backendOk : Backend := fun _ sys usr _ => .ok (sys ++ "(" ++ usr ++ ")")

/-- A backend whose every call raises. -/
def backendFail : Backend := fun _ _ _ _ => .error "boom"

/-- Fixture agent `A`. -/
def agentA : Agent := ⟨"A", "fA", "m", 0, "ida"⟩

/-- Fixture agent `B`. -/
def agentB : Agent := ⟨"B", "fB", "m", 0, "idb"⟩

/-- Fixture agent `C`. -/
def agentC : Agent := ⟨"C", "fC", "m", 0, "idc"⟩

/-- Fixture registry holding agents `A`, `B`, `C`. -/
def chainABC : MultiAgentChain := ⟨[("A", agentA), ("B", agentB), ("C", agentC)], "EV", []⟩

/-- Witness for C7 at a concrete failing backend and a concrete unparsable
router reply. -/
theorem C7_witness :
    Agent.execute backendFail agentA "x" none = "Agent A 執行錯誤: boom" ∧
    RouterAgent.route (.error "down") (fun _ => none) ["A", "B"] =
      { strategy := some "single", agents := some ["A"]
        reasoning := some "路由錯誤，使用預設策略: down" } ∧
    RouterAgent.route (.ok "not json") (fun _ => none) ["A", "B"] =
      { strategy := some "single", agents := some ["A"]
        reasoning := some "自動選擇單一 Agent 處理" } := by
  have h := C7_backend_failure_recovered backendFail agentA "x" none (.error "down")
    (fun _ => none) ["A", "B"]
  have h2 := C7_backend_failure_recovered backendFail agentA "x" none (.ok "not json")
    (fun _ => none) ["A", "B"]
  exact ⟨h.1 "boom" rfl, (h.2.1 "down" rfl).1, (h2.2.2 "not json" rfl rfl).1⟩

/-- Witness for C8 at a concrete registry: re-registering `A` fails and keeps
the entry, updating the absent `ghost` fails, and both preserve key nodup. -/
theorem C8_witness :
    create_agent chainABC ⟨"A", "p", "m", 0⟩ "id9" = .error "Agent 已存在" ∧
    aget (chain_after chainABC (create_agent chainABC ⟨"A", "p", "m", 0⟩ "id9")).agents "A" =
      some agentA ∧
    update_agent chainABC "ghost" ⟨some "p", none, none⟩ = .error "Agent 不存在" ∧
    (akeys (chain_after chainABC
      (update_agent chainABC "ghost" ⟨some "p", none, none⟩)).agents).Nodup := by
  have h := C8_registry_uniqueness chainABC ⟨"A", "p", "m", 0⟩ "id9" "ghost"
    ⟨some "p", none, none⟩
  exact ⟨(h.1 agentA (by decide)).1, (h.1 agentA (by decide)).2,
    (h.2.1 (by decide)).1, (h.2.2 (by decide)).2⟩

/-- Witness for C10 at a concrete partial update of agent `B`. -/
theorem C10_witness :
    ∃ c', update_agent chainABC "B" ⟨some "p2", none, some 1⟩ = .ok c' ∧
      aget c'.agents "B" = some
        { name := agentB.name
          system_prompt := (some "p2").getD agentB.system_prompt
          model := (none : Option String).getD agentB.model
          temperature := (some (1 : Rat)).getD agentB.temperature
          id := agentB.id } ∧
      (∀ k, k ≠ "B" → aget c'.agents k = aget chainABC.agents k) ∧
      c'.evaluator_prompt = chainABC.evaluator_prompt ∧
      c'.execution_history = chainABC.execution_history :=
  C10_update_frame chainABC "B" ⟨some "p2", none, some 1⟩ agentB (by decide)

/-- The trace of the fan-out loop of `execute_parallel`: one agent call per
registered name occurrence, in the order given, each on the identical input. -/
theorem parallel_results_events (backend : Backend) (agents : PyDict Agent)
    (input_text : String) (context : Option Ctx) :
    ∀ (names : List String) (acc : PyDict String × List CallEvent),
      (names.foldl
        (fun acc name =>
          match aget agents name with
          | some a => (aset acc.1 name (a.execute backend input_text context),
                       acc.2 ++ [.agentCall name input_text context])
          | none => acc)
        acc).2 =
      acc.2 ++ names.filterMap
        (fun n => if (aget agents n).isSome then
          some (CallEvent.agentCall n input_text context) else none) := by
  intro names
  induction names with
  | nil => intro acc; simp
  | cons name rest ih =>
      intro acc
      cases h : aget agents name with
      | none => simp [h, ih]
      | some a => simp [h, ih]

/-- Looking up a name outside the requested list is unaffected by the fan-out loop. -/
theorem parallel_results_get_notmem (backend : Backend) (agents : PyDict Agent)
    (input_text : String) (context : Option Ctx) :
    ∀ (names : List String) (acc : PyDict String × List CallEvent) (k : String),
      k ∉ names →
      aget (names.foldl
        (fun acc name =>
          match aget agents name with
          | some a => (aset acc.1 name (a.execute backend input_text context),
                       acc.2 ++ [.agentCall name input_text context])
          | none => acc)
        acc).1 k = aget acc.1 k := by
  intro names
  induction names with
  | nil => intro acc k _; rfl
  | cons name rest ih =>
      intro acc k hk
      have hkn : k ≠ name := fun he => hk (he ▸ List.mem_cons_self _ _)
      have hkr : k ∉ rest := fun hr => hk (List.mem_cons_of_mem _ hr)
      cases h : aget agents name with
      | none =>
          simp only [List.foldl_cons, h]
          exact ih _ k hkr
      | some a =>
          simp only [List.foldl_cons, h]
          rw [ih _ k hkr]
          exact aget_aset_ne _ _ _ _ (Ne.symm hkn)

/-- A registered requested name ends up bound to its agent's result on the
shared original input and context. -/
theorem parallel_results_get_mem (backend : Backend) (agents : PyDict Agent)
    (input_text : String) (context : Option Ctx) :
    ∀ (names : List String) (acc : PyDict String × List CallEvent) (k : String) (a : Agent),
      aget agents k = some a → k ∈ names →
      aget (names.foldl
        (fun acc name =>
          match aget agents name with
          | some a => (aset acc.1 name (a.execute backend input_text context),
                       acc.2 ++ [.agentCall name input_text context])
          | none => acc)
        acc).1 k = some (a.execute backend input_text context) := by
  intro names
  induction names with
  | nil => intro acc k a _ hm; simp at hm
  | cons name rest ih =>
      intro acc k a ha hm
      by_cases hk : k ∈ rest
      · cases h : aget agents name with
        | none => simp only [List.foldl_cons, h]; exact ih _ k a ha hk
        | some b => simp only [List.foldl_cons, h]; exact ih _ k a ha hk
      · have hkn : k = name := by
          rcases List.mem_cons.mp hm with h | h
          · exact h
          · exact absurd h hk
        subst hkn
        simp only [List.foldl_cons, ha]
        rw [parallel_results_get_notmem backend agents input_text context rest _ k hk]
        exact aget_aset_self _ _ _

/-- The keys added by the fan-out loop form a registered sub-sequence of the
requested names. -/
theorem parallel_results_keys (backend : Backend) (agents : PyDict Agent)
    (input_text : String) (context : Option Ctx) :
    ∀ (names : List String) (acc : PyDict String × List CallEvent),
      ∃ nk : List String,
        akeys (names.foldl
          (fun acc name =>
            match aget agents name with
            | some a => (aset acc.1 name (a.execute backend input_text context),
                         acc.2 ++ [.agentCall name input_text context])
            | none => acc)
          acc).1 = akeys acc.1 ++ nk ∧
        nk.Sublist names ∧
        ∀ x ∈ nk, (aget agents x).isSome ∧ x ∉ akeys acc.1 := by
  intro names
  induction names with
  | nil => intro acc; exact ⟨[], by simp, by simp, by simp⟩
  | cons name rest ih =>
      intro acc
      cases h : aget agents name with
      | none =>
          obtain ⟨nk, h1, h2, h3⟩ := ih acc
          exact ⟨nk, by simpa [h] using h1, h2.cons _, by simpa [h] using h3⟩
      | some a =>
          cases hmem : aget acc.1 name with
          | some v =>
              obtain ⟨nk, h1, h2, h3⟩ :=
                ih (aset acc.1 name (a.execute backend input_text context),
                    acc.2 ++ [.agentCall name input_text context])
              refine ⟨nk, ?_, h2.cons _, ?_⟩
              · rw [← akeys_aset_of_isSome acc.1 name (a.execute backend input_text context)
                  (by simp [hmem])]
                simpa [h] using h1
              · intro x hx
                have := h3 x hx
                rwa [akeys_aset_of_isSome acc.1 name _ (by simp [hmem])] at this
          | none =>
              obtain ⟨nk, h1, h2, h3⟩ :=
                ih (aset acc.1 name (a.execute backend input_text context),
                    acc.2 ++ [.agentCall name input_text context])
              refine ⟨name :: nk, ?_, h2.cons₂ _, ?_⟩
              · rw [akeys_aset_of_none acc.1 name _ hmem] at h1
                simpa [h] using h1
              · intro x hx
                rcases List.mem_cons.mp hx with hxe | hxm
                · subst hxe
                  exact ⟨by simp [h], (aget_eq_none_iff_not_mem _ _).mp hmem⟩
                · have := h3 x hxm
                  rw [akeys_aset_of_none acc.1 name _ hmem] at this
                  exact ⟨this.1, fun hxk => this.2 (by simp [hxk])⟩

/-- The call trace of `execute_parallel` does not depend on the outcome of the
evaluator call: the agent calls, then the single evaluator call on the prompt
built from the complete result set. -/
theorem execute_parallel_events (backend : Backend) (c : MultiAgentChain)
    (agent_names : List String) (input_text : String) (context : Option Ctx) :
    (execute_parallel backend c agent_names input_text context).2 =
      (parallel_results backend c.agents agent_names input_text context).2 ++
        [CallEvent.evalCall (evaluation_input input_text
          (parallel_results backend c.agents agent_names input_text context).1)] := by
  unfold execute_parallel
  cases hb : backend "llama3.2:3b" c.evaluator_prompt
    (evaluation_input input_text
      (parallel_results backend c.agents agent_names input_text context).1) 0.1 <;>
    simp [hb]

/-- C3: `execute_parallel` invokes exactly the registered requested agents, in
request order, each on the identical original input and context; unknown names
are skipped silently; `individual_results` holds entries for exactly the
registered subset of the given names, keyed in given order; and the evaluator
merge call happens exactly once, after every agent call, on the prompt built
from the complete result set. -/
theorem C3_parallel_fanout_merge (backend : Backend) (c : MultiAgentChain)
    (agent_names : List String) (input_text : String) (context : Option Ctx) :
    (execute_parallel backend c agent_names input_text context).2 =
      agent_names.filterMap
        (fun n => if (aget c.agents n).isSome then
          some (CallEvent.agentCall n input_text context) else none)
      ++ [CallEvent.evalCall (evaluation_input input_text
            (parallel_results backend c.agents agent_names input_text context).1)] ∧
    (∀ k, k ∈ akeys (parallel_results backend c.agents agent_names input_text context).1 ↔
      (k ∈ agent_names ∧ (aget c.agents k).isSome)) ∧
    (akeys (parallel_results backend c.agents agent_names input_text context).1).Sublist
      agent_names ∧
    (∀ k a, aget c.agents k = some a → k ∈ agent_names →
      aget (parallel_results backend c.agents agent_names input_text context).1 k =
        some (a.execute backend input_text context)) ∧
    (∀ r, backend "llama3.2:3b" c.evaluator_prompt
        (evaluation_input input_text
          (parallel_results backend c.agents agent_names input_text context).1) 0.1 =
        Except.ok r →
      (execute_parallel backend c agent_names input_text context).1 =
        Except.ok
          ({ c with execution_history := c.execution_history ++
              [Payload.parallel agent_names
                (parallel_results backend c.agents agent_names input_text context).1 r] },
            Payload.parallel agent_names
              (parallel_results backend c.agents agent_names input_text context).1 r)) := by
  obtain ⟨nk, hk1, hk2, hk3⟩ :=
    parallel_results_keys backend c.agents input_text context agent_names ([], [])
  refine ⟨?_, ?_, ?_, ?_, ?_⟩
  · rw [execute_parallel_events]
    have := parallel_results_events backend c.agents input_text context agent_names ([], [])
    unfold parallel_results
    simp only at this
    rw [this]
    simp
  · intro k
    constructor
    · intro hks
      unfold parallel_results at hks
      rw [hk1] at hks
      simp [akeys] at hks
      have := hk3 k hks
      exact ⟨hk2.mem hks, this.1⟩
    · rintro ⟨hmem, hsome⟩
      obtain ⟨a, ha⟩ := Option.isSome_iff_exists.mp hsome
      rw [← aget_isSome_iff_mem_akeys]
      unfold parallel_results
      rw [parallel_results_get_mem backend c.agents input_text context agent_names _ k a ha hmem]
      rfl
  · unfold parallel_results
    rw [hk1]
    simpa [akeys] using hk2
  · intro k a ha hmem
    unfold parallel_results
    exact parallel_results_get_mem backend c.agents input_text context agent_names _ k a ha hmem
  · intro r hr
    unfold execute_parallel
    simp only [hr]

/-- Witness for C3 at a concrete registry, with one unknown name in the list. -/
theorem C3_witness :
    aget (parallel_results backendOk chainABC.agents ["A", "X", "B"] "x" none).1 "A" =
      some (agentA.execute backendOk "x" none) ∧
    ("X" ∈ akeys (parallel_results backendOk chainABC.agents ["A", "X", "B"] "x" none).1 ↔
      ("X" ∈ ["A", "X", "B"] ∧ (aget chainABC.agents "X").isSome)) ∧
    (execute_parallel backendOk chainABC ["A", "X", "B"] "x" none).1 =
      Except.ok
        ({ chainABC with execution_history := chainABC.execution_history ++
            [Payload.parallel ["A", "X", "B"]
              (parallel_results backendOk chainABC.agents ["A", "X", "B"] "x" none).1
              ("EV(" ++ evaluation_input "x"
                (parallel_results backendOk chainABC.agents ["A", "X", "B"] "x" none).1 ++ ")")] },
          Payload.parallel ["A", "X", "B"]
            (parallel_results backendOk chainABC.agents ["A", "X", "B"] "x" none).1
            ("EV(" ++ evaluation_input "x"
              (parallel_results backendOk chainABC.agents ["A", "X", "B"] "x" none).1 ++ ")")) := by
  have h := C3_parallel_fanout_merge backendOk chainABC ["A", "X", "B"] "x" none
  refine ⟨h.2.2.2.1 "A" agentA (by decide) (by decide), h.2.1 "X", ?_⟩
  exact h.2.2.2.2 _ rfl

/-- A successful `execute_single` appends exactly its payload to the history
and leaves the registry and evaluator prompt alone. -/
theorem execute_single_ok (backend : Backend) (c : MultiAgentChain) (agent_name : String)
    (input_text : String) (context : Option Ctx) (st : MultiAgentChain × Payload)
    (h : execute_single backend c agent_name input_text context = .ok st) :
    st.1.execution_history = c.execution_history ++ [st.2] ∧ st.1.agents = c.agents := by
  unfold execute_single at h
  cases ha : aget c.agents agent_name with
  | none => rw [ha] at h; simp at h
  | some a =>
      rw [ha] at h
      simp only [Except.ok.injEq] at h
      subst h
      exact ⟨rfl, rfl⟩

/-- A successful `execute_parallel` appends exactly its payload to the history. -/
theorem execute_parallel_ok (backend : Backend) (c : MultiAgentChain)
    (agent_names : List String) (input_text : String) (context : Option Ctx)
    (st : MultiAgentChain × Payload)
    (h : (execute_parallel backend c agent_names input_text context).1 = .ok st) :
    st.1.execution_history = c.execution_history ++ [st.2] ∧ st.1.agents = c.agents := by
  simp only [execute_parallel] at h
  cases hb : backend "llama3.2:3b" c.evaluator_prompt
      (evaluation_input input_text
        (parallel_results backend c.agents agent_names input_text context).1) 0.1 with
  | error e => rw [hb] at h; simp at h
  | ok r =>
      rw [hb] at h
      simp only [Except.ok.injEq] at h
      subst h
      exact ⟨rfl, rfl⟩

/-- `execute_sequential` always succeeds and appends exactly its payload. -/
theorem execute_sequential_ok (backend : Backend) (c : MultiAgentChain)
    (agent_names : List String) (input_text : String) (context : Option Ctx) :
    (execute_sequential backend c agent_names input_text context).1.execution_history =
      c.execution_history ++ [(execute_sequential backend c agent_names input_text context).2] ∧
    (execute_sequential backend c agent_names input_text context).1.agents = c.agents :=
  ⟨rfl, rfl⟩

/-- A successful `execute_branched` appends exactly its payload to the history. -/
theorem execute_branched_ok (backend : Backend) (c : MultiAgentChain) (dag : DAGConfig)
    (input_text : String) (context : Option Ctx) (st : MultiAgentChain × Payload)
    (h : execute_branched backend c dag input_text context = .ok st) :
    st.1.execution_history = c.execution_history ++ [st.2] ∧ st.1.agents = c.agents := by
  simp only [execute_branched] at h
  cases hf : (if dag.outputs.isEmpty
      then Except.ok (run_outputs backend c.agents input_text context (branched_order dag).2.1)
      else dict_pick (run_outputs backend c.agents input_text context (branched_order dag).2.1)
        dag.outputs []) with
  | error e => rw [hf] at h; simp at h
  | ok fo =>
      rw [hf] at h
      simp only [Except.ok.injEq] at h
      subst h
      exact ⟨rfl, rfl⟩

/-- A successful `dispatch` appends exactly the payload of its response. -/
theorem dispatch_ok (backend : Backend) (current_dag : DAGConfig) (c : MultiAgentChain)
    (strategy : String) (agent_names : List String) (decision : RouterDecision)
    (req : RunRequest) (c' : MultiAgentChain) (resp : RunResponse)
    (h : dispatch backend current_dag c strategy agent_names decision req = .ok (c', resp)) :
    c'.execution_history = c.execution_history ++ [resp.payload] ∧ c'.agents = c.agents := by
  cases agent_names with
  | nil => simp [dispatch] at h
  | cons target rest =>
      simp only [dispatch] at h
      by_cases h1 : strategy = "single"
      · rw [if_pos h1] at h
        cases hs : execute_single backend c target req.input_text req.context with
        | error e => rw [hs] at h; simp at h
        | ok st =>
            rw [hs] at h
            simp only [Except.ok.injEq, Prod.mk.injEq] at h
            obtain ⟨rfl, rfl⟩ := h
            exact execute_single_ok backend c target req.input_text req.context st hs
      · rw [if_neg h1] at h
        by_cases h2 : strategy = "parallel"
        · rw [if_pos h2] at h
          cases hs : (execute_parallel backend c (target :: rest) req.input_text req.context).1 with
          | error e => rw [hs] at h; simp at h
          | ok st =>
              rw [hs] at h
              simp only [Except.ok.injEq, Prod.mk.injEq] at h
              obtain ⟨rfl, rfl⟩ := h
              exact execute_parallel_ok backend c (target :: rest) req.input_text req.context st hs
        · rw [if_neg h2] at h
          by_cases h3 : strategy = "sequential"
          · rw [if_pos h3] at h
            simp only [Except.ok.injEq, Prod.mk.injEq] at h
            obtain ⟨rfl, rfl⟩ := h
            exact execute_sequential_ok backend c (target :: rest) req.input_text req.context
          · rw [if_neg h3] at h
            by_cases h4 : strategy = "branched"
            · rw [if_pos h4] at h
              cases hs : execute_branched backend c current_dag req.input_text req.context with
              | error e => rw [hs] at h; simp at h
              | ok st =>
                  rw [hs] at h
                  simp only [Except.ok.injEq, Prod.mk.injEq] at h
                  obtain ⟨rfl, rfl⟩ := h
                  exact execute_branched_ok backend c current_dag req.input_text req.context st hs
            · rw [if_neg h4] at h
              simp at h

/-- A successful `run_chain` appends exactly the payload of its response. -/
theorem run_chain_ok (backend : Backend) (route_decision : RouterDecision)
    (current_dag : DAGConfig) (c : MultiAgentChain) (req : RunRequest)
    (c' : MultiAgentChain) (resp : RunResponse)
    (h : run_chain backend route_decision current_dag c req = .ok (c', resp)) :
    history c' = history c ++ [resp.payload] ∧ c'.agents = c.agents :=
  dispatch_ok backend current_dag c _ _ _ req c' resp h

/-- A successful `run_many` appends exactly one payload per call, in call order. -/
theorem run_many_history (backend : Backend) (current_dag : DAGConfig) :
    ∀ (runs : List (RouterDecision × RunRequest)) (c c' : MultiAgentChain),
      run_many backend current_dag c runs = .ok c' →
      ∃ ps : List Payload, history c' = history c ++ ps ∧ ps.length = runs.length := by
  intro runs
  induction runs with
  | nil =>
      intro c c' h
      simp only [run_many, Except.ok.injEq] at h
      subst h
      exact ⟨[], by simp [history], rfl⟩
  | cons pr rest ih =>
      intro c c' h
      obtain ⟨d, req⟩ := pr
      unfold run_many at h
      cases hr : run_chain backend d current_dag c req with
      | error e => rw [hr] at h; simp at h
      | ok st =>
          rw [hr] at h
          obtain ⟨ps, h1, h2⟩ := ih st.1 c' h
          have hstep := (run_chain_ok backend d current_dag c req st.1 st.2 hr).1
          refine ⟨st.2.payload :: ps, ?_, by simp [h2]⟩
          rw [h1, hstep]
          simp

/-- C9: every successful top-level `run_chain` call appends exactly one
execution record to the history (and the `history` query returns old records
unchanged, in call order, before the new one); consequently a sequence of N
successful `run_chain` calls yields exactly N appended records in call order. -/
theorem C9_history_append_only (backend : Backend) (current_dag : DAGConfig)
    (c : MultiAgentChain) (route_decision : RouterDecision) (req : RunRequest)
    (runs : List (RouterDecision × RunRequest)) :
    (∀ c' resp, run_chain backend route_decision current_dag c req = .ok (c', resp) →
      history c' = history c ++ [resp.payload]) ∧
    (∀ c', run_many backend current_dag c runs = .ok c' →
      ∃ ps : List Payload, history c' = history c ++ ps ∧ ps.length = runs.length) :=
  ⟨fun c' resp h => (run_chain_ok backend route_decision current_dag c req c' resp h).1,
   fun c' h => run_many_history backend current_dag runs c c' h⟩

/-- Fixture request forcing the sequential strategy on agent `A`. -/
def reqSeq : RunRequest := ⟨"x", some "sequential", some ["A"], none, none⟩

/-- Fixture empty router decision. -/
def decNone : RouterDecision := ⟨none, none, none⟩

/-- Fixture empty DAG descriptor. -/
def dagEmpty : DAGConfig := ⟨[], [], []⟩

/-- Witness for C9: two concrete successful runs append exactly two records. -/
theorem C9_witness :
    ∃ (c' : MultiAgentChain) (ps : List Payload),
      run_many backendOk dagEmpty chainABC [(decNone, reqSeq), (decNone, reqSeq)] = .ok c' ∧
      history c' = history chainABC ++ ps ∧ ps.length = 2 := by
  cases hr : run_many backendOk dagEmpty chainABC [(decNone, reqSeq), (decNone, reqSeq)] with
  | error e =>
      have hok : (run_many backendOk dagEmpty chainABC
          [(decNone, reqSeq), (decNone, reqSeq)]).isOk = true := by decide
      rw [hr] at hok
      simp [Except.isOk, Except.toBool] at hok
  | ok c' =>
      obtain ⟨ps, h1, h2⟩ := (C9_history_append_only backendOk dagEmpty chainABC decNone reqSeq
        [(decNone, reqSeq), (decNone, reqSeq)]).2 c' hr
      exact ⟨c', ps, rfl, h1, h2⟩

/-- True in-degree of `v`: the number of edges into `v`, with multiplicity. -/
def in_count (epairs : List (String × String)) (v : String) : Int :=
  ((epairs.filter (fun p => p.2 = v)).length : Int)

/-- Number of edges into `v` whose source has already been visited. -/
def seen_in_count (epairs : List (String × String)) (seen : List String) (v : String) : Int :=
  ((epairs.filter (fun p => p.2 = v ∧ p.1 ∈ seen)).length : Int)

/-- `v` occurs in the edge list (as a source or a target). -/
def endpoint (epairs : List (String × String)) (v : String) : Prop :=
  ∃ p ∈ epairs, p.1 = v ∨ p.2 = v

instance (epairs : List (String × String)) (v : String) : Decidable (endpoint epairs v) := by
  unfold endpoint; infer_instance

/-- The successors of `s`, in edge order, with multiplicity. -/
def targets_from (epairs : List (String × String)) (s : String) : List String :=
  epairs.filterMap (fun p => if p.1 = s then some p.2 else none)

theorem targets_from_cons (p : String × String) (rest : List (String × String)) (s : String) :
    targets_from (p :: rest) s =
      if p.1 = s then p.2 :: targets_from rest s else targets_from rest s := by
  by_cases h : p.1 = s <;> simp [targets_from, h]

theorem mem_targets_from (epairs : List (String × String)) (s t : String) :
    t ∈ targets_from epairs s ↔ (s, t) ∈ epairs := by
  induction epairs with
  | nil => simp [targets_from]
  | cons p rest ih =>
      obtain ⟨a, b⟩ := p
      rw [targets_from_cons]
      by_cases h : a = s
      · subst h
        simp [ih]
      · simp only [h, if_false, List.mem_cons, ih]
        constructor
        · exact Or.inr
        · rintro (he | hm)
          · exact absurd (congrArg Prod.fst he).symm h
          · exact hm

/-- `build_graph` adjacency lookup: the stored successor list of `s` is the
accumulated one followed by the successors contributed by the remaining edges. -/
theorem build_graph_adj (epairs : List (String × String)) :
    ∀ (st : PyDict Int × PyDict (List String)) (s : String),
      aget (build_graph epairs st).2 s =
        match aget st.2 s, targets_from epairs s with
        | none, [] => none
        | o, ts => some (o.getD [] ++ ts) := by
  induction epairs with
  | nil =>
      intro st s
      simp only [build_graph, targets_from, List.filterMap_nil]
      cases aget st.2 s <;> simp
  | cons p rest ih =>
      intro st s
      obtain ⟨a, b⟩ := p
      obtain ⟨indeg, adj⟩ := st
      rw [show build_graph ((a, b) :: rest) (indeg, adj) =
        build_graph rest
          ((if (aget (aset indeg b ((aget indeg b).getD 0 + 1)) a).isSome
            then aset indeg b ((aget indeg b).getD 0 + 1)
            else aset (aset indeg b ((aget indeg b).getD 0 + 1)) a 0),
           aset adj a ((aget adj a).getD [] ++ [b])) from rfl]
      rw [ih]
      rw [targets_from_cons]
      by_cases h : a = s
      · subst h
        rw [aget_aset_self]
        cases aget adj a <;> simp
      · rw [aget_aset_ne adj a s _ h]
        simp only [h, if_false]

/-- One `build_graph` step on the in-degree dict (`indeg[t] += 1` with the
`get(t, 0)` default, then `indeg.setdefault(s, 0)`), as a lookup equation. -/
theorem build_step_indeg_get (indeg : PyDict Int) (a b v : String) :
    aget (if (aget (aset indeg b ((aget indeg b).getD 0 + 1)) a).isSome
          then aset indeg b ((aget indeg b).getD 0 + 1)
          else aset (aset indeg b ((aget indeg b).getD 0 + 1)) a 0) v =
      (if v = b then some ((aget indeg b).getD 0 + 1)
       else if v = a ∧ aget indeg v = none then some 0
       else aget indeg v) := by
  have hb : aget (aset indeg b ((aget indeg b).getD 0 + 1)) b =
      some ((aget indeg b).getD 0 + 1) := aget_aset_self _ _ _
  have hnb : ∀ w, w ≠ b → aget (aset indeg b ((aget indeg b).getD 0 + 1)) w = aget indeg w :=
    fun w hw => aget_aset_ne _ b w _ (Ne.symm hw)
  by_cases hc : (aget (aset indeg b ((aget indeg b).getD 0 + 1)) a).isSome
  · rw [if_pos hc]
    by_cases hvb : v = b
    · rw [if_pos hvb, hvb, hb]
    · rw [hnb v hvb, if_neg hvb]
      by_cases hva : v = a
      · rw [← hva] at hc
        rw [hnb v hvb] at hc
        rw [if_neg (fun hx => by rw [hx.2] at hc; exact Bool.noConfusion hc)]
      · rw [if_neg (fun hx => hva hx.1)]
  · rw [if_neg hc]
    have hab : a ≠ b := by
      intro he
      rw [he, hb] at hc
      exact hc rfl
    have hanone : aget indeg a = none := by
      rw [hnb a hab] at hc
      cases hx : aget indeg a with
      | none => rfl
      | some d => rw [hx] at hc; exact absurd rfl hc
    by_cases hvb : v = b
    · rw [if_pos hvb, aget_aset_ne _ a v _ (fun he => hab (he.trans hvb)), hvb, hb]
    · by_cases hva : v = a
      · have hvnone : aget indeg v = none := by rw [hva]; exact hanone
        have hlhs : aget (aset (aset indeg b ((aget indeg b).getD 0 + 1)) a 0) v = some 0 := by
          rw [hva]; exact aget_aset_self _ _ _
        rw [hlhs, if_neg hvb, if_pos ⟨hva, hvnone⟩]
      · rw [aget_aset_ne _ a v _ (fun he => hva he.symm), hnb v hvb,
          if_neg hvb, if_neg (fun hx => hva hx.1)]

theorem in_count_cons (a b v : String) (rest : List (String × String)) :
    in_count ((a, b) :: rest) v = (if b = v then 1 else 0) + in_count rest v := by
  by_cases hb : b = v <;> simp [in_count, hb] <;> omega

theorem endpoint_cons (a b v : String) (rest : List (String × String)) :
    endpoint ((a, b) :: rest) v ↔ (a = v ∨ b = v) ∨ endpoint rest v := by
  constructor
  · rintro ⟨p, hp, hv⟩
    rcases List.mem_cons.mp hp with rfl | hp
    · exact Or.inl hv
    · exact Or.inr ⟨p, hp, hv⟩
  · rintro (hv | ⟨p, hp, hv⟩)
    · exact ⟨(a, b), List.mem_cons_self _ _, hv⟩
    · exact ⟨p, List.mem_cons_of_mem _ hp, hv⟩

/-- `build_graph` in-degree lookup: the final count of `v` is the accumulated
one (defaulting to 0) plus the in-degree contributed by the remaining edges,
and a key exists exactly for accumulated keys and endpoints. -/
theorem build_graph_indeg (epairs : List (String × String)) :
    ∀ (st : PyDict Int × PyDict (List String)) (v : String),
      aget (build_graph epairs st).1 v =
        if (aget st.1 v).isSome ∨ endpoint epairs v then
          some ((aget st.1 v).getD 0 + in_count epairs v)
        else none := by
  induction epairs with
  | nil =>
      intro st v
      simp only [build_graph, endpoint, in_count, List.filter_nil, List.length_nil,
        List.not_mem_nil, false_and, exists_false, or_false, Int.Nat.cast_ofNat_Int]
      cases h : aget st.1 v <;> simp [h]
  | cons p rest ih =>
      intro st v
      obtain ⟨a, b⟩ := p
      obtain ⟨indeg, adj⟩ := st
      rw [show build_graph ((a, b) :: rest) (indeg, adj) =
        build_graph rest
          ((if (aget (aset indeg b ((aget indeg b).getD 0 + 1)) a).isSome
            then aset indeg b ((aget indeg b).getD 0 + 1)
            else aset (aset indeg b ((aget indeg b).getD 0 + 1)) a 0),
           aset adj a ((aget adj a).getD [] ++ [b])) from rfl]
      rw [ih]
      simp only [build_step_indeg_get, in_count_cons, endpoint_cons]
      by_cases hvb : v = b
      · simp only [hvb, if_pos rfl, Option.isSome_some, true_or, or_true, if_true,
          Option.getD_some, Option.some.injEq]
        omega
      · have hbv : ¬ b = v := fun he => hvb he.symm
        simp only [hvb, if_false, hbv]
        by_cases hva : v = a
        · cases hv : aget indeg v with
          | none => simp [hva]
          | some d => simp [hva]
        · have hav : ¬ a = v := fun he => hva he.symm
          simp only [hva, false_and, if_false, hav, hbv, false_or]
          by_cases hx : (aget indeg v).isSome ∨ endpoint rest v
          · simp [hx]
          · simp [hx]

/-- The successor loop leaves nodes outside the successor list untouched. -/
theorem process_succs_get_notmem :
    ∀ (ts : List String) (indeg : PyDict Int) (q : List String) (v : String),
      v ∉ ts → aget (process_succs indeg q ts).1 v = aget indeg v := by
  intro ts
  induction ts with
  | nil => intro indeg q v _; rfl
  | cons nxt rest ih =>
      intro indeg q v hv
      have hvn : v ≠ nxt := fun he => hv (he ▸ List.mem_cons_self _ _)
      have hvr : v ∉ rest := fun hr => hv (List.mem_cons_of_mem _ hr)
      show aget (process_succs (aset indeg nxt ((aget indeg nxt).getD 0 - 1)) _ rest).1 v = _
      rw [ih _ _ v hvr]
      exact aget_aset_ne _ _ _ _ (Ne.symm hvn)

/-- The successor loop decrements a present node once per occurrence in the list. -/
theorem process_succs_get_mem :
    ∀ (ts : List String) (indeg : PyDict Int) (q : List String) (v : String) (d : Int),
      aget indeg v = some d →
      aget (process_succs indeg q ts).1 v = some (d - (ts.count v : Int)) := by
  intro ts
  induction ts with
  | nil => intro indeg q v d hd; simpa [process_succs] using hd
  | cons nxt rest ih =>
      intro indeg q v d hd
      show aget (process_succs (aset indeg nxt ((aget indeg nxt).getD 0 - 1)) _ rest).1 v = _
      by_cases hv : v = nxt
      · subst hv
        have h1 : aget (aset indeg v ((aget indeg v).getD 0 - 1)) v = some (d - 1) := by
          rw [hd] at *
          simpa using aget_aset_self indeg v ((some d).getD 0 - 1)
        rw [ih _ _ v (d - 1) h1]
        have hc : (v :: rest).count v = rest.count v + 1 := by simp [List.count_cons]
        rw [hc]
        simp only [Option.some.injEq]
        push_cast
        omega
      · have h1 : aget (aset indeg nxt ((aget indeg nxt).getD 0 - 1)) v = some d := by
          rw [aget_aset_ne _ _ _ _ (fun he => hv he.symm)]
          exact hd
        have hc : (nxt :: rest).count v = rest.count v := by simp [List.count_cons, hv]
        rw [ih _ _ v d h1, hc]

/-- The successor loop only ever decreases a present count. -/
theorem process_succs_mono (ts : List String) (indeg : PyDict Int) (q : List String)
    (v : String) (d : Int) (hd : aget indeg v = some d) :
    ∃ d', aget (process_succs indeg q ts).1 v = some d' ∧ d' ≤ d := by
  by_cases hv : v ∈ ts
  · exact ⟨d - (ts.count v : Int), process_succs_get_mem ts indeg q v d hd, by
      have : 1 ≤ (ts.count v : Int) := by
        have := List.count_pos_iff_mem.mpr hv
        omega
      omega⟩
  · exact ⟨d, by rw [process_succs_get_notmem ts indeg q v hv]; exact hd, le_refl d⟩

/-- The queue grows by at most one entry per successor, each enqueued entry is
a successor whose final count is `≤ 0`, and the old queue is a prefix. -/
theorem process_succs_queue :
    ∀ (ts : List String) (indeg : PyDict Int) (q : List String),
      ∃ extra, (process_succs indeg q ts).2 = q ++ extra ∧
        extra.length ≤ ts.length ∧
        ∀ x ∈ extra, x ∈ ts ∧
          ∃ d, aget (process_succs indeg q ts).1 x = some d ∧ d ≤ 0 := by
  intro ts
  induction ts with
  | nil => intro indeg q; exact ⟨[], by simp [process_succs], by simp, by simp⟩
  | cons nxt rest ih =>
      intro indeg q
      rw [show process_succs indeg q (nxt :: rest) =
        process_succs (aset indeg nxt ((aget indeg nxt).getD 0 - 1))
          (if (aget indeg nxt).getD 0 - 1 ≤ 0 then q ++ [nxt] else q) rest from rfl]
      by_cases hle : (aget indeg nxt).getD 0 - 1 ≤ 0
      · rw [if_pos hle]
        obtain ⟨extra, h1, h2, h3⟩ := ih (aset indeg nxt ((aget indeg nxt).getD 0 - 1)) (q ++ [nxt])
        refine ⟨nxt :: extra, by rw [h1]; simp, by simpa using Nat.succ_le_succ h2, ?_⟩
        intro x hx
        rcases List.mem_cons.mp hx with he | hx
        · refine ⟨by rw [he]; exact List.mem_cons_self _ _, ?_⟩
          rw [he]
          obtain ⟨d', hd', hle'⟩ := process_succs_mono rest
            (aset indeg nxt ((aget indeg nxt).getD 0 - 1)) (q ++ [nxt]) nxt
            ((aget indeg nxt).getD 0 - 1) (aget_aset_self _ _ _)
          exact ⟨d', hd', le_trans hle' hle⟩
        · obtain ⟨hx1, hx2⟩ := h3 x hx
          exact ⟨List.mem_cons_of_mem _ hx1, hx2⟩
      · rw [if_neg hle]
        obtain ⟨extra, h1, h2, h3⟩ := ih (aset indeg nxt ((aget indeg nxt).getD 0 - 1)) q
        refine ⟨extra, h1, Nat.le_succ_of_le h2, ?_⟩
        intro x hx
        obtain ⟨hx1, hx2⟩ := h3 x hx
        exact ⟨List.mem_cons_of_mem _ hx1, hx2⟩

/-- The successor loop preserves which keys are present, as long as every
successor is already a key (which `build_graph` guarantees). -/
theorem process_succs_isSome (ts : List String) (indeg : PyDict Int) (q : List String)
    (hts : ∀ t ∈ ts, (aget indeg t).isSome) (v : String) :
    (aget (process_succs indeg q ts).1 v).isSome = (aget indeg v).isSome := by
  by_cases hv : v ∈ ts
  · obtain ⟨d, hd⟩ := Option.isSome_iff_exists.mp (hts v hv)
    rw [process_succs_get_mem ts indeg q v d hd, hd]
    rfl
  · rw [process_succs_get_notmem ts indeg q v hv]

theorem seen_in_count_cons (a b v : String) (S : List String)
    (rest : List (String × String)) :
    seen_in_count ((a, b) :: rest) S v =
      (if b = v ∧ a ∈ S then 1 else 0) + seen_in_count rest S v := by
  by_cases h : b = v ∧ a ∈ S
  all_goals simp [seen_in_count, List.filter_cons, h]
  all_goals omega

theorem seen_in_count_le (epairs : List (String × String)) (S : List String) (v : String) :
    seen_in_count epairs S v ≤ in_count epairs v := by
  induction epairs with
  | nil => simp [seen_in_count, in_count]
  | cons p rest ih =>
      obtain ⟨a, b⟩ := p
      rw [seen_in_count_cons, in_count_cons]
      by_cases h : b = v ∧ a ∈ S
      · rw [if_pos h, if_pos h.1]; omega
      · rw [if_neg h]
        by_cases hb : b = v
        · rw [if_pos hb]; omega
        · rw [if_neg hb]; omega

/-- If the visited in-degree has reached the full in-degree of `v`, every edge
into `v` has a visited source. -/
theorem seen_in_count_full (epairs : List (String × String)) (S : List String) (v : String)
    (h : in_count epairs v ≤ seen_in_count epairs S v) :
    ∀ p ∈ epairs, p.2 = v → p.1 ∈ S := by
  induction epairs with
  | nil => simp
  | cons p rest ih =>
      obtain ⟨a, b⟩ := p
      rw [seen_in_count_cons, in_count_cons] at h
      intro p' hp' hpv
      rcases List.mem_cons.mp hp' with rfl | hp'
      · simp only at hpv
        by_cases hmem : a ∈ S
        · exact hmem
        · exfalso
          rw [if_pos hpv, if_neg (fun hx => hmem hx.2)] at h
          have h1 := seen_in_count_le rest S v
          omega
      · apply ih ?_ p' hp' hpv
        by_cases hx : b = v ∧ a ∈ S
        · rw [if_pos hx, if_pos hx.1] at h; omega
        · rw [if_neg hx] at h
          by_cases hb : b = v
          · rw [if_pos hb] at h
            have h1 := seen_in_count_le rest S v
            omega
          · rw [if_neg hb] at h; omega

/-- Visiting a fresh node `n` adds to the visited in-degree of `v` exactly the
number of edges from `n` to `v`. -/
theorem seen_in_count_append (epairs : List (String × String)) (seen : List String)
    (n : String) (hn : n ∉ seen) (v : String) :
    seen_in_count epairs (seen ++ [n]) v =
      seen_in_count epairs seen v + ((targets_from epairs n).count v : Int) := by
  induction epairs with
  | nil => simp [seen_in_count, targets_from]
  | cons p rest ih =>
      obtain ⟨a, b⟩ := p
      rw [seen_in_count_cons, seen_in_count_cons, ih, targets_from_cons]
      by_cases han : a = n
      · rw [if_pos han, List.count_cons]
        by_cases hb : b = v
        · rw [if_pos ⟨hb, by simp [han]⟩, if_neg (fun hx => hn (han ▸ hx.2))]
          simp [hb]
          omega
        · rw [if_neg (fun hx => hb hx.1), if_neg (fun hx => hb hx.1)]
          simp [hb]
      · rw [if_neg han]
        have hmem : (a ∈ seen ++ [n]) ↔ a ∈ seen := by simp [han]
        by_cases hx : b = v ∧ a ∈ seen
        · rw [if_pos ⟨hx.1, by simp [hx.2]⟩, if_pos hx]
          omega
        · rw [if_neg (fun hy => hx ⟨hy.1, hmem.mp hy.2⟩), if_neg hx]
          omega

/-- Strict positional order inside a list: `a` occurs at some position strictly
before an occurrence of `b`. -/
def before (l : List String) (a b : String) : Prop :=
  ∃ i j, i < j ∧ l.get? i = some a ∧ l.get? j = some b

theorem before_append_right (l l' : List String) (a b : String) (h : before l a b) :
    before (l ++ l') a b := by
  obtain ⟨i, j, hij, ha, hb⟩ := h
  obtain ⟨hi, -⟩ := List.get?_eq_some.mp ha
  obtain ⟨hj, -⟩ := List.get?_eq_some.mp hb
  exact ⟨i, j, hij, by rw [List.get?_append hi]; exact ha,
    by rw [List.get?_append hj]; exact hb⟩

theorem before_append_new (l : List String) (s n : String) (hs : s ∈ l) :
    before (l ++ [n]) s n := by
  obtain ⟨i, hgi⟩ := List.mem_iff_get?.mp hs
  obtain ⟨hi, -⟩ := List.get?_eq_some.mp hgi
  exact ⟨i, l.length, hi, by rw [List.get?_append hi]; exact hgi,
    by rw [List.get?_concat_length]⟩

/-- `build_graph` keeps both key lists duplicate-free. -/
theorem build_graph_keys_nodup (epairs : List (String × String)) :
    ∀ st : PyDict Int × PyDict (List String),
      (akeys st.1).Nodup → (akeys st.2).Nodup →
      (akeys (build_graph epairs st).1).Nodup ∧ (akeys (build_graph epairs st).2).Nodup := by
  induction epairs with
  | nil => intro st h1 h2; exact ⟨h1, h2⟩
  | cons p rest ih =>
      intro st h1 h2
      obtain ⟨a, b⟩ := p
      obtain ⟨indeg, adj⟩ := st
      rw [show build_graph ((a, b) :: rest) (indeg, adj) =
        build_graph rest
          ((if (aget (aset indeg b ((aget indeg b).getD 0 + 1)) a).isSome
            then aset indeg b ((aget indeg b).getD 0 + 1)
            else aset (aset indeg b ((aget indeg b).getD 0 + 1)) a 0),
           aset adj a ((aget adj a).getD [] ++ [b])) from rfl]
      apply ih
      · by_cases hc : (aget (aset indeg b ((aget indeg b).getD 0 + 1)) a).isSome
        · rw [if_pos hc]; exact akeys_nodup_aset _ _ _ h1
        · rw [if_neg hc]; exact akeys_nodup_aset _ _ _ (akeys_nodup_aset _ _ _ h1)
      · exact akeys_nodup_aset _ _ _ h2

/-- Total number of stored successor entries. -/
def adj_total (adj : PyDict (List String)) : Nat :=
  (adj.map (fun p => p.2.length)).sum

theorem adj_total_aset_append (adj : PyDict (List String)) (s t : String) :
    adj_total (aset adj s ((aget adj s).getD [] ++ [t])) = adj_total adj + 1 := by
  induction adj with
  | nil => simp [adj_total, aset, aget]
  | cons p rest ih =>
      obtain ⟨k, l⟩ := p
      by_cases hk : k = s
      · subst hk
        simp [aset, aget, adj_total]
        omega
      · simp only [aset, aget, hk, if_false, adj_total, List.map_cons, List.sum_cons] at ih ⊢
        omega

theorem build_graph_adj_total (epairs : List (String × String)) :
    ∀ st : PyDict Int × PyDict (List String),
      adj_total (build_graph epairs st).2 = adj_total st.2 + epairs.length := by
  induction epairs with
  | nil => intro st; simp [build_graph]
  | cons p rest ih =>
      intro st
      obtain ⟨a, b⟩ := p
      obtain ⟨indeg, adj⟩ := st
      rw [show build_graph ((a, b) :: rest) (indeg, adj) =
        build_graph rest
          ((if (aget (aset indeg b ((aget indeg b).getD 0 + 1)) a).isSome
            then aset indeg b ((aget indeg b).getD 0 + 1)
            else aset (aset indeg b ((aget indeg b).getD 0 + 1)) a 0),
           aset adj a ((aget adj a).getD [] ++ [b])) from rfl]
      rw [ih]
      simp only [adj_total_aset_append]
      simp [List.length_cons]
      omega

/-- The adjacency entries of sources not yet visited. -/
def pending (adj : PyDict (List String)) (seen : List String) : Nat :=
  ((adj.filter (fun p => decide (p.1 ∉ seen))).map (fun p => p.2.length)).sum

theorem pending_nil_seen (adj : PyDict (List String)) : pending adj [] = adj_total adj := by
  simp [pending, adj_total]

theorem pending_irrel (rest : PyDict (List String)) (seen : List String) (n : String)
    (h : ∀ p ∈ rest, p.1 ≠ n) : pending rest (seen ++ [n]) = pending rest seen := by
  induction rest with
  | nil => rfl
  | cons p rest ih =>
      have hp := h p (List.mem_cons_self _ _)
      have ih2 := ih (fun x hx => h x (List.mem_cons_of_mem _ hx))
      have hcond : (decide (p.1 ∉ seen ++ [n])) = (decide (p.1 ∉ seen)) := by
        simp [hp]
      simp only [pending, List.filter_cons, hcond] at ih2 ⊢
      by_cases hs : decide (p.1 ∉ seen) = true
      · rw [if_pos hs, if_pos hs]
        simp only [List.map_cons, List.sum_cons]
        omega
      · rw [if_neg hs, if_neg hs]
        exact ih2

theorem pending_append (adj : PyDict (List String)) (seen : List String) (n : String)
    (hnodup : (akeys adj).Nodup) (hn : n ∉ seen) :
    pending adj seen = pending adj (seen ++ [n]) + ((aget adj n).getD []).length := by
  induction adj with
  | nil => simp [pending, aget]
  | cons p rest ih =>
      obtain ⟨k, l⟩ := p
      simp only [akeys, List.map_cons, List.nodup_cons] at hnodup
      by_cases hk : k = n
      · subst hk
        have hrest : ∀ p ∈ rest, p.1 ≠ k := by
          intro p hpm he
          exact hnodup.1 (he ▸ List.mem_map_of_mem _ hpm)
        have hirr := pending_irrel rest seen k hrest
        have hg : aget ((k, l) :: rest) k = some l := by simp [aget]
        rw [hg]
        simp only [pending, List.filter_cons] at hirr ⊢
        rw [if_pos (by simpa using hn : decide (k ∉ seen) = true),
          if_neg (by simp : ¬ decide (k ∉ seen ++ [k]) = true)]
        simp only [List.map_cons, List.sum_cons, Option.getD_some]
        omega
      · have hget : aget ((k, l) :: rest) n = aget rest n := by simp [aget, hk]
        rw [hget]
        have ih2 := ih hnodup.2
        simp only [pending, List.filter_cons] at ih2 ⊢
        have hcond : (decide (k ∉ seen ++ [n])) = (decide (k ∉ seen)) := by simp [hk]
        rw [hcond]
        by_cases hs : decide (k ∉ seen) = true
        · rw [if_pos hs, if_pos hs]
          simp only [List.map_cons, List.sum_cons]
          omega
        · rw [if_neg hs, if_neg hs]
          omega

/-- The stored successor list, from an empty initial state, is exactly the
target list of the edge list (empty for a non-source). -/
theorem build_graph_adj_targets (epairs : List (String × String)) (s : String) :
    (aget (build_graph epairs ([], [])).2 s).getD [] = targets_from epairs s := by
  rw [build_graph_adj]
  cases hts : targets_from epairs s with
  | nil => rfl
  | cons a l => rfl

/-- A node has an adjacency entry exactly when it is a source of some edge. -/
theorem build_graph_adj_isSome (epairs : List (String × String)) (s : String) :
    (aget (build_graph epairs ([], [])).2 s).isSome ↔ targets_from epairs s ≠ [] := by
  rw [build_graph_adj]
  cases hts : targets_from epairs s with
  | nil =>
      simp only [ne_eq, not_true_eq_false, iff_false]
      have hnil : aget ([] : PyDict (List String)) s = none := rfl
      rw [hnil]
      simp
  | cons a l => simp

/-- One unfolding of the `while q:` loop at a non-empty queue. -/
theorem kahn_loop_step (adj : PyDict (List String)) (fuel : Nat) (n : String)
    (q : List String) (indeg : PyDict Int) (seen order : List String) :
    kahn_loop adj (fuel + 1) (n :: q) indeg seen order =
      if n ∈ seen then kahn_loop adj fuel q indeg seen order
      else
        kahn_loop adj fuel (process_succs indeg q ((aget adj n).getD [])).2
          (process_succs indeg q ((aget adj n).getD [])).1 (seen ++ [n]) (order ++ [n]) :=
  rfl

/-- Structural facts of the main loop needing no in-degree reasoning: the
visited list and the order list coincide, the incoming order is a prefix of
the final one, the final order is duplicate-free, and every appended node came
from the queue universe. -/
theorem kahn_loop_basic (adj : PyDict (List String)) :
    ∀ (fuel : Nat) (q : List String) (indeg : PyDict Int) (seen order : List String),
      seen = order → order.Nodup →
      (kahn_loop adj fuel q indeg seen order).2.1 = (kahn_loop adj fuel q indeg seen order).1 ∧
      order <+: (kahn_loop adj fuel q indeg seen order).1 ∧
      (kahn_loop adj fuel q indeg seen order).1.Nodup := by
  intro fuel
  induction fuel with
  | zero => intro q indeg seen order h hn; exact ⟨h, ⟨[], by rw [List.append_nil]; rfl⟩, hn⟩
  | succ fuel ih =>
      intro q indeg seen order h hn
      cases q with
      | nil => exact ⟨h, ⟨[], by rw [List.append_nil]; rfl⟩, hn⟩
      | cons n q =>
          rw [kahn_loop_step]
          by_cases hm : n ∈ seen
          · rw [if_pos hm]
            exact ih q indeg seen order h hn
          · rw [if_neg hm]
            have h' : seen ++ [n] = order ++ [n] := by rw [h]
            have hn' : (order ++ [n]).Nodup := by
              simp [List.nodup_append, hn]
              intro hmem
              exact hm (h ▸ hmem)
            obtain ⟨h1, h2, h3⟩ := ih _ _ (seen ++ [n]) (order ++ [n]) h' hn'
            exact ⟨h1, (show order <+: order ++ [n] from ⟨[n], rfl⟩).trans h2, h3⟩

/-- With the fuel `execute_branched` supplies, the loop always drains the
queue: the embedded fuelled loop does exactly what the Python `while` does. -/
theorem kahn_fuel_sufficient (adj : PyDict (List String)) (hnd : (akeys adj).Nodup) :
    ∀ (fuel : Nat) (q : List String) (indeg : PyDict Int) (seen order : List String),
      q.length + pending adj seen ≤ fuel →
      (kahn_loop adj fuel q indeg seen order).2.2 = [] := by
  intro fuel
  induction fuel with
  | zero =>
      intro q indeg seen order h
      have hq : q = [] := List.length_eq_zero.mp (by omega)
      subst hq; rfl
  | succ fuel ih =>
      intro q indeg seen order h
      cases q with
      | nil => rfl
      | cons n q =>
          rw [kahn_loop_step]
          by_cases hm : n ∈ seen
          · rw [if_pos hm]
            apply ih
            simp only [List.length_cons] at h
            omega
          · rw [if_neg hm]
            obtain ⟨extra, he1, he2, -⟩ :=
              process_succs_queue ((aget adj n).getD []) indeg q
            apply ih
            rw [he1]
            have hp := pending_append adj seen n hnd hm
            simp only [List.length_append, List.length_cons] at h ⊢
            omega

/-- The heart of C1: when every entry node has true in-degree zero, every node
the loop appends to the order is appended only after all of its predecessors,
so the final order lists each visited node after all its predecessors. -/
theorem kahn_loop_sorted (epairs : List (String × String)) (adj : PyDict (List String))
    (entry : List String)
    (HA : ∀ s, (aget adj s).getD [] = targets_from epairs s)
    (HE : ∀ v ∈ entry, in_count epairs v = 0) :
    ∀ (fuel : Nat) (q : List String) (indeg : PyDict Int) (seen order : List String),
      (∀ v, (aget indeg v).isSome ↔ endpoint epairs v) →
      (∀ v d, aget indeg v = some d →
        d = in_count epairs v - seen_in_count epairs seen v) →
      (∀ v ∈ q, v ∈ entry ∨ ∃ d, aget indeg v = some d ∧ d ≤ 0) →
      seen = order → order.Nodup →
      (∀ v ∈ order, ∀ s, (s, v) ∈ epairs → before order s v) →
      (∀ v ∈ (kahn_loop adj fuel q indeg seen order).1, ∀ s, (s, v) ∈ epairs →
        before (kahn_loop adj fuel q indeg seen order).1 s v) := by
  intro fuel
  induction fuel with
  | zero => intro q indeg seen order _ _ _ _ _ h6; exact h6
  | succ fuel ih =>
      intro q indeg seen order h1 h2 h3 h4 h5 h6
      cases q with
      | nil => exact h6
      | cons n q =>
          rw [kahn_loop_step]
          by_cases hm : n ∈ seen
          · rw [if_pos hm]
            exact ih q indeg seen order h1 h2
              (fun v hv => h3 v (List.mem_cons_of_mem _ hv)) h4 h5 h6
          · rw [if_neg hm]
            have hts' : (aget adj n).getD [] = targets_from epairs n := HA n
            have htsome : ∀ t ∈ (aget adj n).getD [], (aget indeg t).isSome := by
              intro t ht
              rw [h1 t]
              rw [hts'] at ht
              exact ⟨(n, t), (mem_targets_from epairs n t).mp ht, Or.inr rfl⟩
            have hpred : ∀ s, (s, n) ∈ epairs → s ∈ order := by
              intro s hs
              rcases h3 n (List.mem_cons_self _ _) with hent | ⟨d, hd, hdle⟩
              · exfalso
                have h0 := HE n hent
                have hmem2 : (s, n) ∈ epairs.filter (fun p => p.2 = n) :=
                  List.mem_filter.mpr ⟨hs, by simp⟩
                have hlen := List.length_pos.mpr (List.ne_nil_of_mem hmem2)
                have hpos : 0 < in_count epairs n := by
                  unfold in_count
                  exact_mod_cast hlen
                omega
              · have hdval := h2 n d hd
                have hfull := seen_in_count_full epairs seen n (by omega)
                have hmem3 := hfull (s, n) hs rfl
                rwa [h4] at hmem3
            have h1' : ∀ v,
                (aget (process_succs indeg q ((aget adj n).getD [])).1 v).isSome ↔
                  endpoint epairs v := by
              intro v
              rw [process_succs_isSome _ indeg q htsome v]
              exact h1 v
            have h2' : ∀ v d', aget (process_succs indeg q ((aget adj n).getD [])).1 v =
                some d' → d' = in_count epairs v - seen_in_count epairs (seen ++ [n]) v := by
              intro v d' hd'
              have hvsome : (aget indeg v).isSome := by
                rw [← process_succs_isSome _ indeg q htsome v, hd']; rfl
              obtain ⟨d, hd⟩ := Option.isSome_iff_exists.mp hvsome
              have hmem4 := process_succs_get_mem ((aget adj n).getD []) indeg q v d hd
              rw [hmem4] at hd'
              injection hd' with hde
              have hdv := h2 v d hd
              have hsic := seen_in_count_append epairs seen n hm v
              rw [hts'] at hde
              omega
            have h3' : ∀ v ∈ (process_succs indeg q ((aget adj n).getD [])).2,
                v ∈ entry ∨
                ∃ d, aget (process_succs indeg q ((aget adj n).getD [])).1 v = some d ∧
                  d ≤ 0 := by
              intro v hv
              obtain ⟨extra, he1, he2, he3⟩ := process_succs_queue ((aget adj n).getD []) indeg q
              rw [he1] at hv
              rcases List.mem_append.mp hv with hv | hv
              · rcases h3 v (List.mem_cons_of_mem _ hv) with hent | ⟨d, hd, hdle⟩
                · exact Or.inl hent
                · obtain ⟨d', hd', hle'⟩ :=
                    process_succs_mono ((aget adj n).getD []) indeg q v d hd
                  exact Or.inr ⟨d', hd', le_trans hle' hdle⟩
              · obtain ⟨-, d, hd, hdle⟩ := he3 v hv
                exact Or.inr ⟨d, hd, hdle⟩
            have h4' : seen ++ [n] = order ++ [n] := by rw [h4]
            have h5' : (order ++ [n]).Nodup := by
              simp [List.nodup_append, h5]
              intro hmem5
              exact hm (h4 ▸ hmem5)
            have h6' : ∀ v ∈ order ++ [n], ∀ s, (s, v) ∈ epairs →
                before (order ++ [n]) s v := by
              intro v hv s hs
              rcases List.mem_append.mp hv with hv | hv
              · exact before_append_right _ _ _ _ (h6 v hv s hs)
              · have hvn : v = n := by simpa using hv
                subst hvn
                exact before_append_new order s v (hpred s hs)
            exact ih _ _ (seen ++ [n]) (order ++ [n]) h1' h2' h3' h4' h5' h6'

theorem seen_in_count_nil (epairs : List (String × String)) (v : String) :
    seen_in_count epairs [] v = 0 := by
  simp [seen_in_count]

/-- The in-degree dict built from scratch binds `v` exactly when `v` occurs in
the edge list, to its true in-degree. -/
theorem build_graph_indeg_scratch (epairs : List (String × String)) (v : String) :
    aget (build_graph epairs ([], [])).1 v =
      if endpoint epairs v then some (in_count epairs v) else none := by
  have hag := build_graph_indeg epairs ([], []) v
  have hnil : aget ([] : PyDict Int) v = none := rfl
  rw [hnil] at hag
  simpa using hag

/-- The entry list `execute_branched` computes when no explicit entry is given
is, as a set, exactly the nodes of the graph with no incoming edge. -/
theorem branched_entry_spec (epairs : List (String × String)) (v : String) :
    (v ∈ ((build_graph epairs ([], [])).1.filter (fun p => p.2 = 0)).map (·.1)) ↔
      (endpoint epairs v ∧ in_count epairs v = 0) := by
  have hnd := (build_graph_keys_nodup epairs ([], []) (by simp [akeys]) (by simp [akeys])).1
  have hag := build_graph_indeg_scratch epairs v
  constructor
  · intro hv
    simp only [List.mem_map, List.mem_filter] at hv
    obtain ⟨p, ⟨hp, hp2⟩, hp1⟩ := hv
    simp only [decide_eq_true_eq] at hp2
    have hvz : (v, (0 : Int)) ∈ (build_graph epairs ([], [])).1 := by
      have : p = (v, 0) := by
        obtain ⟨p1, p2⟩ := p
        simp only at hp1 hp2
        rw [hp1, hp2]
      rwa [this] at hp
    have hgz := aget_of_mem_nodup _ v 0 hnd hvz
    by_cases he : endpoint epairs v
    · rw [if_pos he] at hag
      rw [hgz] at hag
      injection hag with hz
      exact ⟨he, hz.symm⟩
    · rw [if_neg he] at hag
      rw [hgz] at hag
      exact Option.noConfusion hag
  · rintro ⟨he, hz⟩
    rw [if_pos he, hz] at hag
    have hmem := mem_of_aget_eq_some _ v 0 hag
    exact List.mem_map.mpr ⟨(v, 0), List.mem_filter.mpr ⟨hmem, by simp⟩, rfl⟩

/-- The initial state of the main branched pass satisfies all the loop
invariants, so every visited node is ordered after all its predecessors. -/
theorem branched_order_sorted (epairs : List (String × String)) (entry : List String)
    (HE : ∀ v ∈ entry, in_count epairs v = 0) (fuel : Nat) :
    ∀ v ∈ (kahn_loop (build_graph epairs ([], [])).2 fuel entry
        (build_graph epairs ([], [])).1 [] []).1,
      ∀ s, (s, v) ∈ epairs →
        before (kahn_loop (build_graph epairs ([], [])).2 fuel entry
          (build_graph epairs ([], [])).1 [] []).1 s v := by
  apply kahn_loop_sorted epairs _ entry (build_graph_adj_targets epairs) HE fuel entry _ [] []
  · intro v
    rw [build_graph_indeg_scratch]
    by_cases he : endpoint epairs v
    · simp [he]
    · simp [he]
  · intro v d hd
    rw [build_graph_indeg_scratch] at hd
    rw [seen_in_count_nil]
    by_cases he : endpoint epairs v
    · rw [if_pos he] at hd
      injection hd with hd
      omega
    · rw [if_neg he] at hd
      exact Option.noConfusion hd
  · intro v hv
    exact Or.inl hv
  · rfl
  · exact List.nodup_nil
  · simp

/-- C1: for a DAG descriptor with an empty explicit entry list,
`execute_branched` computes the run order by Kahn's algorithm: the computed
entry is (as a set) exactly the in-degree-zero nodes of the edge list, and
every node visited by the main pass appears in the final output order strictly
after all of its predecessors.  (Acyclicity is not even needed for these two
facts, so the claim's acyclic case follows.)  The reported payload carries
exactly this order and entry. -/
theorem C1_branched_kahn_topology (dag : DAGConfig) (h_entry : dag.entry = []) :
    (∀ v, v ∈ (branched_order dag).1 ↔
      (endpoint (edge_pairs dag.edges) v ∧ in_count (edge_pairs dag.edges) v = 0)) ∧
    (∀ v ∈ (branched_order dag).2.2, ∀ s, (s, v) ∈ edge_pairs dag.edges →
      before (branched_order dag).2.1 s v) ∧
    (∀ (backend : Backend) (c : MultiAgentChain) (input_text : String)
        (context : Option Ctx) (c' : MultiAgentChain) (p : Payload),
      execute_branched backend c dag input_text context = .ok (c', p) →
      ∃ outs fin, p = Payload.branched (branched_order dag).2.1 (edge_pairs dag.edges)
        (branched_order dag).1 outs fin) := by
  obtain ⟨edges, dentry, douts⟩ := dag
  have hde : dentry = [] := h_entry
  subst hde
  refine ⟨fun v => branched_entry_spec (edge_pairs edges) v, ?_, ?_⟩
  · intro v hv s hs
    have HE : ∀ w ∈ ((build_graph (edge_pairs edges) ([], [])).1.filter
        (fun p => p.2 = 0)).map (·.1), in_count (edge_pairs edges) w = 0 :=
      fun w hw => ((branched_entry_spec (edge_pairs edges) w).mp hw).2
    have hbasic := kahn_loop_basic (build_graph (edge_pairs edges) ([], [])).2
      ((((build_graph (edge_pairs edges) ([], [])).1.filter
          (fun p => p.2 = 0)).map (·.1)).length + (edge_pairs edges).length)
      (((build_graph (edge_pairs edges) ([], [])).1.filter
          (fun p => p.2 = 0)).map (·.1))
      (build_graph (edge_pairs edges) ([], [])).1 [] [] rfl List.nodup_nil
    have hv' : v ∈ (kahn_loop (build_graph (edge_pairs edges) ([], [])).2
        ((((build_graph (edge_pairs edges) ([], [])).1.filter
            (fun p => p.2 = 0)).map (·.1)).length + (edge_pairs edges).length)
        (((build_graph (edge_pairs edges) ([], [])).1.filter
            (fun p => p.2 = 0)).map (·.1))
        (build_graph (edge_pairs edges) ([], [])).1 [] []).1 := by
      rw [← hbasic.1]
      exact hv
    have hsorted := branched_order_sorted (edge_pairs edges) _ HE
      ((((build_graph (edge_pairs edges) ([], [])).1.filter
          (fun p => p.2 = 0)).map (·.1)).length + (edge_pairs edges).length)
      v hv' s hs
    exact before_append_right _ _ _ _ hsorted
  · intro backend c input_text context c' p h
    simp only [execute_branched] at h
    split at h
    · simp at h
    · simp only [Except.ok.injEq, Prod.mk.injEq] at h
      exact ⟨_, _, h.2.symm⟩

/-- Witness for C1 at the concrete four-edge diamond of the specification:
entry is computed as `["A"]` and `D` is ordered strictly after `B` and `C`. -/
theorem C1_witness :
    (branched_order ⟨[["A", "B"], ["A", "C"], ["B", "D"], ["C", "D"]], [], []⟩).1 = ["A"] ∧
    before (branched_order ⟨[["A", "B"], ["A", "C"], ["B", "D"], ["C", "D"]], [], []⟩).2.1
      "B" "D" ∧
    before (branched_order ⟨[["A", "B"], ["A", "C"], ["B", "D"], ["C", "D"]], [], []⟩).2.1
      "C" "D" := by
  have h := C1_branched_kahn_topology
    ⟨[["A", "B"], ["A", "C"], ["B", "D"], ["C", "D"]], [], []⟩ rfl
  refine ⟨by decide, ?_, ?_⟩
  · exact h.2.1 "D" (by decide) "B" (by decide)
  · exact h.2.1 "D" (by decide) "C" (by decide)

/-- The `outputs` dict of `execute_branched` binds exactly the ordered nodes,
each to the result of its execution step. -/
theorem run_outputs_get (backend : Backend) (agents : PyDict Agent) (input_text : String)
    (context : Option Ctx) :
    ∀ (order : List String) (v : String),
      aget (run_outputs backend agents input_text context order) v =
        if v ∈ order then some (node_output backend agents input_text context v) else none := by
  have hgen : ∀ (order : List String) (acc : PyDict String) (v : String),
      aget (order.foldl (fun acc name =>
        aset acc name (node_output backend agents input_text context name)) acc) v =
        if v ∈ order then some (node_output backend agents input_text context v)
        else aget acc v := by
    intro order
    induction order with
    | nil => intro acc v; simp
    | cons n rest ih =>
        intro acc v
        rw [List.foldl_cons, ih]
        by_cases hvr : v ∈ rest
        · rw [if_pos hvr, if_pos (List.mem_cons_of_mem _ hvr)]
        · rw [if_neg hvr]
          by_cases hvn : v = n
          · subst hvn
            rw [if_pos (List.mem_cons_self _ _), aget_aset_self]
          · rw [aget_aset_ne _ _ _ _ (fun he => hvn he.symm),
              if_neg (by simp [hvn, hvr])]
  intro order v
  rw [run_outputs, hgen]
  by_cases hv : v ∈ order
  · rw [if_pos hv, if_pos hv]
  · rw [if_neg hv, if_neg hv]
    rfl

/-- A successful dict comprehension `{k: outputs[k] for k in ks}` restricts the
map to `ks`. -/
theorem dict_pick_ok (outputs : PyDict String) :
    ∀ (ks : List String) (acc : PyDict String),
      (∀ k ∈ ks, (aget outputs k).isSome) →
      ∃ r, dict_pick outputs ks acc = .ok r ∧
        ∀ k', aget r k' = if k' ∈ ks then aget outputs k' else aget acc k' := by
  intro ks
  induction ks with
  | nil =>
      intro acc _
      exact ⟨acc, rfl, fun k' => by simp⟩
  | cons k rest ih =>
      intro acc hsome
      obtain ⟨v, hv⟩ := Option.isSome_iff_exists.mp (hsome k (List.mem_cons_self _ _))
      obtain ⟨r, hr1, hr2⟩ := ih (aset acc k v)
        (fun x hx => hsome x (List.mem_cons_of_mem _ hx))
      refine ⟨r, ?_, ?_⟩
      · rw [show dict_pick outputs (k :: rest) acc =
          (match aget outputs k with
           | none => Except.error ("KeyError: " ++ k)
           | some v => dict_pick outputs rest (aset acc k v)) from rfl, hv]
        exact hr1
      · intro k'
        rw [hr2 k']
        by_cases hkr : k' ∈ rest
        · rw [if_pos hkr, if_pos (List.mem_cons_of_mem _ hkr)]
        · rw [if_neg hkr]
          by_cases hkk : k' = k
          · subst hkk
            rw [aget_aset_self, if_pos (List.mem_cons_self _ _), hv]
          · rw [aget_aset_ne _ _ _ _ (fun he => hkk he.symm),
              if_neg (by simp [hkk, hkr])]

/-- The dict comprehension raises `KeyError` as soon as some requested key is
absent from `outputs`. -/
theorem dict_pick_err (outputs : PyDict String) :
    ∀ (ks : List String) (acc : PyDict String) (k : String),
      k ∈ ks → aget outputs k = none →
      ∃ e, dict_pick outputs ks acc = .error e := by
  intro ks
  induction ks with
  | nil => intro acc k hk; simp at hk
  | cons k0 rest ih =>
      intro acc k hk hnone
      rw [show dict_pick outputs (k0 :: rest) acc =
        (match aget outputs k0 with
         | none => Except.error ("KeyError: " ++ k0)
         | some v => dict_pick outputs rest (aset acc k0 v)) from rfl]
      cases h0 : aget outputs k0 with
      | none => exact ⟨"KeyError: " ++ k0, rfl⟩
      | some v =>
          have hkr : k ∈ rest := by
            rcases List.mem_cons.mp hk with rfl | hkr
            · rw [hnone] at h0; exact Option.noConfusion h0
            · exact hkr
          exact ih (aset acc k0 v) k hkr hnone

/-- Every source of an edge ends up in the final branched order: either the
main pass visits it, or the unvisited-`adj`-keys pass appends it. -/
theorem order_final_sources (epairs : List (String × String)) (entry : List String)
    (fuel : Nat) (s t : String) (hst : (s, t) ∈ epairs) :
    s ∈ (kahn_loop (build_graph epairs ([], [])).2 fuel entry
          (build_graph epairs ([], [])).1 [] []).1 ++
        (akeys (build_graph epairs ([], [])).2).filter
          (fun n => decide (n ∉ (kahn_loop (build_graph epairs ([], [])).2 fuel entry
            (build_graph epairs ([], [])).1 [] []).2.1)) := by
  have hsrc : targets_from epairs s ≠ [] := by
    intro hnil
    have hmem := (mem_targets_from epairs s t).mpr hst
    rw [hnil] at hmem
    simp at hmem
  have hkeys : s ∈ akeys (build_graph epairs ([], [])).2 := by
    rw [← aget_isSome_iff_mem_akeys]
    exact (build_graph_adj_isSome epairs s).mpr hsrc
  have hbasic := kahn_loop_basic (build_graph epairs ([], [])).2 fuel entry
    (build_graph epairs ([], [])).1 [] [] rfl List.nodup_nil
  by_cases hseen : s ∈ (kahn_loop (build_graph epairs ([], [])).2 fuel entry
      (build_graph epairs ([], [])).1 [] []).2.1
  · apply List.mem_append_left
    rw [← hbasic.1]
    exact hseen
  · apply List.mem_append_right
    exact List.mem_filter.mpr ⟨hkeys, by simpa using hseen⟩

/-- An unvisited edge source is appended strictly after the main pass: it sits
in the suffix of the final order that follows the visited-pass positions. -/
theorem order_final_sources_appended (epairs : List (String × String)) (entry : List String)
    (fuel : Nat) (s t : String) (hst : (s, t) ∈ epairs)
    (hseen : s ∉ (kahn_loop (build_graph epairs ([], [])).2 fuel entry
      (build_graph epairs ([], [])).1 [] []).2.1) :
    s ∈ ((kahn_loop (build_graph epairs ([], [])).2 fuel entry
          (build_graph epairs ([], [])).1 [] []).1 ++
        (akeys (build_graph epairs ([], [])).2).filter
          (fun n => decide (n ∉ (kahn_loop (build_graph epairs ([], [])).2 fuel entry
            (build_graph epairs ([], [])).1 [] []).2.1))).drop
      ((kahn_loop (build_graph epairs ([], [])).2 fuel entry
        (build_graph epairs ([], [])).1 [] []).2.1).length := by
  have hbasic := kahn_loop_basic (build_graph epairs ([], [])).2 fuel entry
    (build_graph epairs ([], [])).1 [] [] rfl List.nodup_nil
  have hlen : ((kahn_loop (build_graph epairs ([], [])).2 fuel entry
      (build_graph epairs ([], [])).1 [] []).2.1).length =
      ((kahn_loop (build_graph epairs ([], [])).2 fuel entry
        (build_graph epairs ([], [])).1 [] []).1).length := by
    rw [hbasic.1]
  rw [hlen, List.drop_left]
  refine List.mem_filter.mpr ⟨?_, by simpa using hseen⟩
  rw [← aget_isSome_iff_mem_akeys]
  apply (build_graph_adj_isSome epairs s).mpr
  intro hnil
  have hmem := (mem_targets_from epairs s t).mpr hst
  rw [hnil] at hmem
  simp at hmem

/-- C4 (amended): every node that appears as the *source* of some edge is in
the final run order of `execute_branched` — and when the main pass does not
visit it, it sits in the appended suffix strictly after all visited positions;
every node of the run order is executed, receiving exactly one entry in the
`outputs` map, and any successful `execute_branched` call reports exactly this
run order and this `outputs` map in its payload.  In particular for the
two-cycle `[["A","B"],["B","A"]]` the main pass visits nothing, both nodes
(both sources) are appended to the final order `["A","B"]`, and both execute
(their `outputs` entries exist for every backend and registry).  A node
referenced only as an edge *target* that is never visited is dropped (see the
counterexample). -/
theorem C4_cycle_sources_appended (dag : DAGConfig) (backend : Backend) (c : MultiAgentChain)
    (input_text : String) (context : Option Ctx) :
    (∀ s t, (s, t) ∈ edge_pairs dag.edges → s ∈ (branched_order dag).2.1) ∧
    (∀ s t, (s, t) ∈ edge_pairs dag.edges → s ∉ (branched_order dag).2.2 →
      s ∈ ((branched_order dag).2.1).drop ((branched_order dag).2.2).length) ∧
    (∀ v, aget (run_outputs backend c.agents input_text context (branched_order dag).2.1) v =
      if v ∈ (branched_order dag).2.1
      then some (node_output backend c.agents input_text context v) else none) ∧
    (∀ (c' : MultiAgentChain) (p : Payload),
      execute_branched backend c dag input_text context = .ok (c', p) →
      ∃ fin, p = Payload.branched (branched_order dag).2.1 (edge_pairs dag.edges)
        (branched_order dag).1
        (run_outputs backend c.agents input_text context (branched_order dag).2.1) fin) ∧
    ((branched_order ⟨[["A", "B"], ["B", "A"]], [], []⟩).2.1 = ["A", "B"]) ∧
    ((branched_order ⟨[["A", "B"], ["B", "A"]], [], []⟩).2.2 = []) ∧
    ((aget (run_outputs backend c.agents input_text context
      (branched_order ⟨[["A", "B"], ["B", "A"]], [], []⟩).2.1) "A").isSome) ∧
    ((aget (run_outputs backend c.agents input_text context
      (branched_order ⟨[["A", "B"], ["B", "A"]], [], []⟩).2.1) "B").isSome) := by
  have hout : ∀ v, aget (run_outputs backend c.agents input_text context
      (branched_order ⟨[["A", "B"], ["B", "A"]], [], []⟩).2.1) v =
      if v ∈ (branched_order ⟨[["A", "B"], ["B", "A"]], [], []⟩).2.1
      then some (node_output backend c.agents input_text context v) else none :=
    run_outputs_get backend c.agents input_text context _
  refine ⟨?_, ?_, ?_, ?_, by decide, by decide, ?_, ?_⟩
  · intro s t hst
    exact order_final_sources (edge_pairs dag.edges) _ _ s t hst
  · intro s t hst hseen
    exact order_final_sources_appended (edge_pairs dag.edges) _ _ s t hst hseen
  · intro v
    exact run_outputs_get backend c.agents input_text context (branched_order dag).2.1 v
  · intro c' p h
    simp only [execute_branched] at h
    split at h
    · simp at h
    · simp only [Except.ok.injEq, Prod.mk.injEq] at h
      exact ⟨_, h.2.symm⟩
  · rw [hout "A", if_pos (by decide)]
    rfl
  · rw [hout "B", if_pos (by decide)]
    rfl

/-- Fixture empty registry. -/
def chainEmpty : MultiAgentChain := ⟨[], "EV", []⟩

/-- Counterexample to C4 as stated: in `[["A","B"],["B","A"],["B","C"]]` the
node `C` is referenced via the edges (as the target of `B → C`) and is never
visited by the main pass, yet it is NOT appended to the run order and never
executes: the actual `execute_branched` call succeeds with `topo_order`
`["A","B"]` and an `outputs` map with no entry for `C`. -/
theorem C4_counterexample :
    (∃ p ∈ edge_pairs [["A", "B"], ["B", "A"], ["B", "C"]], p.2 = "C") ∧
    "C" ∉ (branched_order ⟨[["A", "B"], ["B", "A"], ["B", "C"]], [], []⟩).2.2 ∧
    "C" ∉ (branched_order ⟨[["A", "B"], ["B", "A"], ["B", "C"]], [], []⟩).2.1 ∧
    execute_branched backendOk chainEmpty ⟨[["A", "B"], ["B", "A"], ["B", "C"]], [], []⟩
        "x" none =
      .ok ({ chainEmpty with execution_history := [Payload.branched ["A", "B"]
          [("A", "B"), ("B", "A"), ("B", "C")] []
          [("A", "(skipped, agent not found: A)"), ("B", "(skipped, agent not found: B)")]
          [("A", "(skipped, agent not found: A)"), ("B", "(skipped, agent not found: B)")]] },
        Payload.branched ["A", "B"] [("A", "B"), ("B", "A"), ("B", "C")] []
          [("A", "(skipped, agent not found: A)"), ("B", "(skipped, agent not found: B)")]
          [("A", "(skipped, agent not found: A)"), ("B", "(skipped, agent not found: B)")]) ∧
    aget [("A", "(skipped, agent not found: A)"), ("B", "(skipped, agent not found: B)")]
      "C" = none := by
  refine ⟨⟨("B", "C"), by decide, rfl⟩, by decide, by decide, rfl, by decide⟩

/-- Witness for C4 at the concrete two-cycle: `A` is a source, hence in the
final order; the main pass visits nothing, so `A` sits in the appended suffix;
its outputs entry is the skipped marker under an empty registry; and the
actual `execute_branched` call reports exactly the computed order and map. -/
theorem C4_witness :
    "A" ∈ (branched_order ⟨[["A", "B"], ["B", "A"]], [], []⟩).2.1 ∧
    "A" ∈ ((branched_order ⟨[["A", "B"], ["B", "A"]], [], []⟩).2.1).drop
      ((branched_order ⟨[["A", "B"], ["B", "A"]], [], []⟩).2.2).length ∧
    aget (run_outputs backendOk chainEmpty.agents "x" none
        (branched_order ⟨[["A", "B"], ["B", "A"]], [], []⟩).2.1) "A" =
      some (node_output backendOk chainEmpty.agents "x" none "A") ∧
    (∃ fin, Payload.branched ["A", "B"] [("A", "B"), ("B", "A")] []
        [("A", "(skipped, agent not found: A)"), ("B", "(skipped, agent not found: B)")]
        [("A", "(skipped, agent not found: A)"), ("B", "(skipped, agent not found: B)")] =
      Payload.branched (branched_order ⟨[["A", "B"], ["B", "A"]], [], []⟩).2.1
        (edge_pairs [["A", "B"], ["B", "A"]])
        (branched_order ⟨[["A", "B"], ["B", "A"]], [], []⟩).1
        (run_outputs backendOk chainEmpty.agents "x" none
          (branched_order ⟨[["A", "B"], ["B", "A"]], [], []⟩).2.1) fin) := by
  have h := C4_cycle_sources_appended ⟨[["A", "B"], ["B", "A"]], [], []⟩ backendOk chainEmpty
    "x" none
  refine ⟨h.1 "A" "B" (by decide), h.2.1 "A" "B" (by decide) (by decide), ?_, ?_⟩
  · rw [h.2.2.1 "A", if_pos (h.1 "A" "B" (by decide))]
  · exact h.2.2.2.1 _ _ rfl

/-- With an empty `outputs` list, `execute_branched` succeeds and the final
result is the entire outputs map. -/
theorem execute_branched_no_outputs (backend : Backend) (c : MultiAgentChain)
    (dag : DAGConfig) (input_text : String) (context : Option Ctx)
    (houts : dag.outputs = []) :
    execute_branched backend c dag input_text context =
      .ok ({ c with execution_history := c.execution_history ++
          [Payload.branched (branched_order dag).2.1 (edge_pairs dag.edges)
            (branched_order dag).1
            (run_outputs backend c.agents input_text context (branched_order dag).2.1)
            (run_outputs backend c.agents input_text context (branched_order dag).2.1)] },
        Payload.branched (branched_order dag).2.1 (edge_pairs dag.edges)
          (branched_order dag).1
          (run_outputs backend c.agents input_text context (branched_order dag).2.1)
          (run_outputs backend c.agents input_text context (branched_order dag).2.1)) := by
  simp [execute_branched, houts]

/-- C5 (amended): `execute_branched` gives a skipped-marker to every name of
the computed run order that is not in the registry; with an empty `outputs`
list it returns the entire map; with a non-empty `outputs` list all of whose
names are in the run order it returns the restriction of the map to that list;
but a listed output name outside the run order raises a `KeyError` — the call
is not total in the face of arbitrary unknown names. -/
theorem C5_branched_unknown_names (dag : DAGConfig) (backend : Backend) (c : MultiAgentChain)
    (input_text : String) (context : Option Ctx) :
    (∀ v ∈ (branched_order dag).2.1, aget c.agents v = none →
      aget (run_outputs backend c.agents input_text context (branched_order dag).2.1) v =
        some ("(skipped, agent not found: " ++ v ++ ")")) ∧
    (dag.outputs = [] →
      ∃ c', execute_branched backend c dag input_text context =
        .ok (c', Payload.branched (branched_order dag).2.1 (edge_pairs dag.edges)
          (branched_order dag).1
          (run_outputs backend c.agents input_text context (branched_order dag).2.1)
          (run_outputs backend c.agents input_text context (branched_order dag).2.1))) ∧
    (dag.outputs ≠ [] → (∀ k ∈ dag.outputs, k ∈ (branched_order dag).2.1) →
      ∃ c' fin, execute_branched backend c dag input_text context =
        .ok (c', Payload.branched (branched_order dag).2.1 (edge_pairs dag.edges)
          (branched_order dag).1
          (run_outputs backend c.agents input_text context (branched_order dag).2.1) fin) ∧
        (∀ k', aget fin k' =
          if k' ∈ dag.outputs
          then aget (run_outputs backend c.agents input_text context
            (branched_order dag).2.1) k'
          else none)) ∧
    (∀ k ∈ dag.outputs, k ∉ (branched_order dag).2.1 →
      ∃ e, execute_branched backend c dag input_text context = .error e) := by
  refine ⟨?_, ?_, ?_, ?_⟩
  · intro v hv hreg
    rw [run_outputs_get, if_pos hv]
    simp [node_output, hreg]
  · intro houts
    exact ⟨_, execute_branched_no_outputs backend c dag input_text context houts⟩
  · intro hne hall
    have hsome : ∀ k ∈ dag.outputs,
        (aget (run_outputs backend c.agents input_text context
          (branched_order dag).2.1) k).isSome := by
      intro k hk
      rw [run_outputs_get, if_pos (hall k hk)]
      rfl
    obtain ⟨r, hr1, hr2⟩ := dict_pick_ok _ dag.outputs [] hsome
    have hemp : dag.outputs.isEmpty = false := by
      cases h : dag.outputs with
      | nil => exact absurd h hne
      | cons a l => rfl
    refine ⟨{ c with execution_history := c.execution_history ++
        [Payload.branched (branched_order dag).2.1 (edge_pairs dag.edges)
          (branched_order dag).1
          (run_outputs backend c.agents input_text context (branched_order dag).2.1) r] },
      r, ?_, ?_⟩
    · simp only [execute_branched, hemp, Bool.false_eq_true, if_false, hr1]
    · intro k'
      rw [hr2 k']
      by_cases hk' : k' ∈ dag.outputs
      · rw [if_pos hk', if_pos hk']
      · rw [if_neg hk', if_neg hk']
        rfl
  · intro k hk hnotin
    have hnone : aget (run_outputs backend c.agents input_text context
        (branched_order dag).2.1) k = none := by
      rw [run_outputs_get, if_neg hnotin]
    obtain ⟨e, he⟩ := dict_pick_err _ dag.outputs [] k hk hnone
    have hemp : dag.outputs.isEmpty = false := by
      cases h : dag.outputs with
      | nil => rw [h] at hk; simp at hk
      | cons a l => rfl
    refine ⟨e, ?_⟩
    simp only [execute_branched, hemp, Bool.false_eq_true, if_false, he]

/-- Counterexample to C5 as stated: the name `Z` is referenced in the
descriptor's `outputs` list and is not in the registry, and instead of
yielding a placeholder marker the call fails with a raised `KeyError`. -/
theorem C5_counterexample :
    aget chainABC.agents "Z" = none ∧
    execute_branched backendOk chainABC ⟨[], [], ["Z"]⟩ "x" none =
      .error "KeyError: Z" := by
  exact ⟨by decide, rfl⟩

/-- Witness for C5 at a concrete descriptor: the unregistered ordered node `X`
gets the skipped marker, and the `outputs` list `["A"]` restricts the final
map to `A`. -/
theorem C5_witness :
    aget (run_outputs backendOk chainABC.agents "x" none
        (branched_order ⟨[["A", "X"]], [], ["A"]⟩).2.1) "X" =
      some ("(skipped, agent not found: " ++ "X" ++ ")") ∧
    ∃ c' fin, execute_branched backendOk chainABC ⟨[["A", "X"]], [], ["A"]⟩ "x" none =
      .ok (c', Payload.branched (branched_order ⟨[["A", "X"]], [], ["A"]⟩).2.1
        (edge_pairs [["A", "X"]]) (branched_order ⟨[["A", "X"]], [], ["A"]⟩).1
        (run_outputs backendOk chainABC.agents "x" none
          (branched_order ⟨[["A", "X"]], [], ["A"]⟩).2.1) fin) ∧
      (∀ k', aget fin k' =
        if k' ∈ ["A"]
        then aget (run_outputs backendOk chainABC.agents "x" none
          (branched_order ⟨[["A", "X"]], [], ["A"]⟩).2.1) k'
        else none) := by
  have h := C5_branched_unknown_names ⟨[["A", "X"]], [], ["A"]⟩ backendOk chainABC "x" none
  exact ⟨h.1 "X" (by decide) (by decide),
    h.2.2.1 (by decide) (fun k hk => by
      have : k = "A" := by simpa using hk
      rw [this]; decide)⟩

/-- Fixture request with the `"auto"` strategy hint and no explicit agents. -/
def reqAuto : RunRequest := ⟨"hello", some "auto", none, none, none⟩

/-- Fixture router decision naming an unregistered agent under `"single"`. -/
def ghostDec : RouterDecision := ⟨some "single", some ["ghost"], some "r"⟩

/-- C6 (amended): the orchestrator does not validate the router's referenced
names before dispatch.  Under the `"single"` strategy an unknown first name
raises a `ValueError` inside `execute_single` that `run_chain` does not catch
(an unhandled exception, not a rejected request); under `"sequential"` the
dispatch always succeeds, silently skipping unknown names; and an empty router
decision is still handled gracefully — with an `"auto"` hint the unresolved
strategy token is rejected with HTTP 400. -/
theorem C6_no_prevalidation (backend : Backend) (current_dag : DAGConfig)
    (c : MultiAgentChain) :
    (∀ (target : String) (rest : List String) (decision : RouterDecision) (req : RunRequest),
      aget c.agents target = none →
      dispatch backend current_dag c "single" (target :: rest) decision req =
        .error (.unhandled ("Agent " ++ target ++ " 不存在"))) ∧
    (∀ (names : List String) (decision : RouterDecision) (req : RunRequest),
      names ≠ [] →
      ∃ st, dispatch backend current_dag c "sequential" names decision req = .ok st) ∧
    (∀ req : RunRequest, req.strategy = some "auto" →
      ∃ d, run_chain backend ⟨none, none, none⟩ current_dag c req =
        .error (.http 400 d)) := by
  refine ⟨?_, ?_, ?_⟩
  · intro target rest decision req h
    simp [dispatch, execute_single, h]
  · intro names decision req hne
    match names, hne with
    | n :: rest, _ => exact ⟨_, rfl⟩
  · intro req hauto
    obtain ⟨it, st, ag, cx, bi⟩ := req
    have hst : st = some "auto" := hauto
    subst hst
    have hrun : run_chain backend ⟨none, none, none⟩ current_dag c
        ⟨it, some "auto", ag, cx, bi⟩ =
        dispatch backend current_dag c "auto"
          (resolved_agent_names ⟨none, none, none⟩ ⟨it, some "auto", ag, cx, bi⟩
            (akeys c.agents))
          ⟨none, none, none⟩ ⟨it, some "auto", ag, cx, bi⟩ := rfl
    rw [hrun]
    cases hn : resolved_agent_names ⟨none, none, none⟩ ⟨it, some "auto", ag, cx, bi⟩
        (akeys c.agents) with
    | nil => exact ⟨"沒有可用的 Agent", rfl⟩
    | cons n rest => exact ⟨"策略必須為 single/parallel/sequential/branched/auto", rfl⟩

/-- Counterexample to C6 as stated: the router's decision references `ghost`,
which is not in the registry; `run_chain` neither validates it before dispatch
nor fails gracefully — the `ValueError` escapes as an unhandled exception. -/
theorem C6_counterexample :
    aget chainABC.agents "ghost" = none ∧
    run_chain backendOk ghostDec dagEmpty chainABC reqAuto =
      .error (.unhandled ("Agent " ++ "ghost" ++ " 不存在")) :=
  ⟨by decide, rfl⟩

/-- Witness for C6 at concrete inputs: the unknown-single-name dispatch raises
unhandled, and an empty decision under the `"auto"` hint yields an HTTP 400. -/
theorem C6_witness :
    dispatch backendOk dagEmpty chainABC "single" ["ghost"] ghostDec reqAuto =
      .error (.unhandled ("Agent " ++ "ghost" ++ " 不存在")) ∧
    (∃ st, dispatch backendOk dagEmpty chainABC "sequential" ["A", "ghost"] ghostDec reqAuto =
      .ok st) ∧
    (∃ d, run_chain backendOk ⟨none, none, none⟩ dagEmpty chainABC reqAuto =
      .error (.http 400 d)) := by
  have h := C6_no_prevalidation backendOk dagEmpty chainABC
  exact ⟨h.1 "ghost" [] ghostDec reqAuto (by decide),
    h.2.1 ["A", "ghost"] ghostDec reqAuto (by decide),
    h.2.2 reqAuto (by decide)⟩

/-- Witness for C2 at a concrete three-name run with one unknown name. -/
theorem C2_witness :
    ∃ steps final_result,
      (execute_sequential backendOk chainABC ["A", "X", "B"] "x" none).2 =
        Payload.sequential ["A", "X", "B"] steps final_result ∧
      steps.map (·.agent) =
        (["A", "X", "B"].filter (fun n => (aget chainABC.agents n).isSome)) ∧
      ChainedFrom backendOk chainABC.agents none "x" steps final_result :=
  C2_sequential_chain backendOk chainABC ["A", "X", "B"] "x" none
